import Mathlib

/-!
Shallow embedding of the conversational recommendation engine in
`src/xin_api.py` (xin-bot), together with theorems settling the claims
about it.

Modelling conventions:
* Python strings are `List Char` (`Str`); `sub in s` is substring
  containment, `s.replace`, `s.count`, `s.strip`, `re.split` are embedded
  character-exactly below.
* Python floats are modelled as `ℚ`: every constant in the scoring code
  (10, 4, 5, 2, 1, 0.5, 2.0, 20.0, 10.0, 0.25) is exactly representable,
  so float rounding never distinguishes the two models on these programs.
* Python dicts are insertion-ordered association lists; `dict` iteration
  and `list.sort`/`sorted` (stable) are embedded with
  `List.insertionSort`, which is the stable sort.
* Python `set` iteration order is unspecified; it is modelled as
  first-insertion order (only membership is ever relevant to the claims).
* External collaborators (Jina embedding service, Google translator,
  langdetect, the OSM geocoder, haversine trigonometry) are oracle
  functions bundled in `Deps`; their failure modes collapse to the value
  the source returns in its `except` branches (`[]`, `none`, identity).
-/

set_option maxRecDepth 8000

attribute [local semireducible] Rat.add Rat.mul Rat.sub Rat.inv Rat.ofScientific

abbrev Str := List Char

/-- Shorthand to write embedded Python strings. -/
def str (s : String) : Str := s.data

/-- Python `sub in s`: substring containment. -/
def isSub (sub s : Str) : Bool := decide (sub <:+: s)

/-- Python `s.count(pat)` for a nonempty `pat`: number of non-overlapping
occurrences, scanning left to right.  The second argument is the number of
characters still to be skipped after a match (structural recursion so the
kernel can evaluate it). -/
def countGo (pat : Str) : Str → ℕ → ℕ
  | [], _ => 0
  | _ :: t, k + 1 => countGo pat t k
  | c :: t, 0 =>
    if pat.isPrefixOf (c :: t) then 1 + countGo pat t (pat.length - 1)
    else countGo pat t 0

/-- Python `s.count(pat)` (for the empty pattern Python counts `len+1` slots). -/
def pyCount (s pat : Str) : ℕ :=
  if pat = [] then s.length + 1 else countGo pat s 0

/-- Worker for Python `s.replace(pat, repl)` with nonempty `pat`: replace
non-overlapping occurrences, scanning left to right.  The counter is the
number of matched characters still to be consumed (structural recursion so
the kernel can evaluate it). -/
def replGo (pat repl : Str) : Str → ℕ → Str
  | [], _ => []
  | _ :: t, k + 1 => replGo pat repl t k
  | c :: t, 0 =>
    if pat.isPrefixOf (c :: t) then repl ++ replGo pat repl t (pat.length - 1)
    else c :: replGo pat repl t 0

/-- Python `s.replace(pat, repl)` for nonempty `pat`. -/
def replChars (pat repl s : Str) : Str := replGo pat repl s 0

/-- Python `s.replace(pat, repl)` (for the empty pattern Python interleaves
`repl` around every character). -/
def pyReplace (s pat repl : Str) : Str :=
  if pat = [] then repl ++ (s.map (fun c => c :: repl)).flatten
  else replChars pat repl s

/-- Whitespace as recognised by Python `str.strip()` / `\s` (ASCII range;
the unicode-only space characters never occur in the embedded constants). -/
def isWs (c : Char) : Bool :=
  c == ' ' || c == '\t' || c == '\n' || c == '\r' || c.toNat == 11 || c.toNat == 12

/-- Python `s.strip()`. -/
def pyStrip (s : Str) : Str :=
  ((s.dropWhile isWs).reverse.dropWhile isWs).reverse

/-- Python `s.strip(chars)`. -/
def pyStripSet (s : Str) (cs : Str) : Str :=
  ((s.dropWhile (cs.contains ·)).reverse.dropWhile (cs.contains ·)).reverse

/-- Python `s.lower()` (ASCII case folding; the Chinese constants are
unaffected). -/
def lowerStr (s : Str) : Str := s.map Char.toLower

/-- The delimiter class of `re.split(r"[，。！!？?\s、；;:：]+", …)` in
`normalize_query`. -/
def isDelim (c : Char) : Bool :=
  isWs c || (str "，。！!？?、；;:：").contains c

/-- Worker for the delimiter split: `cur` is the (reversed) token being
accumulated. -/
def splitGo : Str → Str → List Str
  | [], cur => if cur = [] then [] else [cur.reverse]
  | c :: t, cur =>
    if isDelim c then (if cur = [] then splitGo t [] else cur.reverse :: splitGo t [])
    else splitGo t (c :: cur)

/-- `re.split` on the delimiter class, dropping empty fields (the source
filters all fields of length < 2 anyway, so boundary empties are inert). -/
def splitDelims (s : Str) : List Str := splitGo s []

/-! ## Data model (§3): content units, scored results -/

/-- One subtitle segment of a video unit. -/
structure Subtitle where
  text : Str
  start_sec : ℚ
deriving DecidableEq, Repr

/-- A recommendable content unit (video lesson or article), as loaded by
`load_all_units`. -/
structure CUnit where
  section_title : Str
  title : Str
  content_text : Str
  subtitles : List Subtitle
  is_article : Bool
deriving DecidableEq, Repr

/-- A scored search result: the unit dict copied with `_score` and
`_best_segment` attached (`search_units` / `search_units_semantic`). -/
structure SR where
  u : CUnit
  score : ℚ
  best_seg : Option Subtitle
deriving DecidableEq, Repr

/-- The three term lists produced by `normalize_query`. -/
structure Terms where
  user_input_core : List Str
  category_expanded : List Str
  other_terms : List Str
deriving DecidableEq, Repr

/-- The taxonomy `KEYWORDS_DATA`: category → keyword list, as an
insertion-ordered dict. -/
abbrev Taxonomy := List (Str × List Str)

/-! ## Query normalizer (`normalize_query`, lines 288-312) -/

/-- The fixed `functional_words` list of `normalize_query`. -/
def functionalWords : List Str :=
  [str "文章", str "影片", str "想看", str "給我", str "只有", str "只想看",
   str "推薦", str "影音", str "播放", str "查詢", str "找", str "有哪些", str "介紹"]

/-- First loop of `normalize_query`: every taxonomy keyword contained in
the query, in iteration order, deduplicated. -/
def coreFold (KD : Taxonomy) (q : Str) : List Str :=
  KD.foldl
    (fun acc p =>
      p.2.foldl
        (fun a kw => if isSub kw q then (if kw ∈ a then a else a ++ [kw]) else a)
        acc)
    []

/-- The categories with at least one keyword hit (`found_categories`;
Python set modelled in first-insertion order). -/
def foundCats (KD : Taxonomy) (q : Str) : List Str :=
  KD.foldl
    (fun acc p =>
      if p.2.any (fun kw => isSub kw q) then (if p.1 ∈ acc then acc else acc ++ [p.1])
      else acc)
    []

/-- Python `KEYWORDS_DATA[cat]` (dict lookup; categories are unique keys). -/
def lookupKD (KD : Taxonomy) (cat : Str) : List Str :=
  ((KD.find? (fun p => p.1 == cat)).map (·.2)).getD []

/-- Second loop of `normalize_query`: sibling keywords of matched
categories, excluding `user_input_core`, deduplicated. -/
def expandedFold (KD : Taxonomy) (q : Str) (core : List Str) : List Str :=
  (foundCats KD q).foldl
    (fun acc cat =>
      (lookupKD KD cat).foldl
        (fun a kw => if kw ∈ core ∨ kw ∈ a then a else a ++ [kw])
        acc)
    []

/-- Residual-token loop of `normalize_query`: fields of length ≥ 2 that
are not stop words, deduplicated. -/
def otherFold (STOP : List Str) (parts : List Str) : List Str :=
  parts.foldl
    (fun acc part =>
      if 2 ≤ part.length ∧ part ∉ STOP ∧ part ∉ acc then acc ++ [part] else acc)
    []

/-- The working copy of the query after blanking out all `user_input_core`
keywords and then all functional words (`temp_q`). -/
def tempQ (core : List Str) (q : Str) : Str :=
  (core ++ functionalWords).foldl (fun s kw => pyReplace s kw (str " ")) q

/-- `normalize_query` (lines 288-312). -/
def normalize_query (KD : Taxonomy) (STOP : List Str) (q : Str) : Terms :=
  let q0 := lowerStr (pyStrip q)
  if q0 = [] then ⟨[], [], []⟩
  else
    let core := coreFold KD q0
    ⟨core, expandedFold KD q0 core, otherFold STOP (splitDelims (tempQ core q0))⟩

/-! ## Lexical scorer (`score_unit`, lines 314-349) -/

/-- One accumulation step of the three keyword loops of `score_unit`:
`+tw` for a title hit plus `+cw` per body occurrence. -/
def lexTerm (title content : Str) (tw cw : ℚ) (kw : Str) : ℚ :=
  (if isSub kw title then tw else 0) +
    (if 0 < pyCount content kw then (pyCount content kw : ℚ) * cw else 0)

/-- The keyword-loop part of `score_unit` (lines 318-330), accumulated in
source order: user-core terms (10/4), expanded terms (5/2), other terms
(1/0.5). -/
def lexScore (title content : Str) (user_core expanded_core other_terms : List Str) : ℚ :=
  other_terms.foldl (fun acc kw => acc + lexTerm title content 1 (1/2) kw)
    (expanded_core.foldl (fun acc kw => acc + lexTerm title content 5 2 kw)
      (user_core.foldl (fun acc kw => acc + lexTerm title content 10 4 kw) 0))

/-- Per-segment hit weight (lines 336-338): the count of user-core hits,
or half the count of expanded hits when there is no core hit. -/
def segHits (user_core expanded_core : List Str) (t : Str) : ℚ :=
  let h := user_core.countP (fun kw => isSub kw t)
  if h = 0 then (expanded_core.countP (fun kw => isSub kw t) : ℚ) * (1/2)
  else (h : ℚ)

/-- The subtitle scan of `score_unit` (lines 331-343): best segment,
best segment score, and the `has_core_list` of per-segment topical flags. -/
def scanSegs (user_core expanded_core : List Str) (subs : List Subtitle) :
    Option Subtitle × ℚ × List Bool :=
  subs.foldl
    (fun acc seg =>
      let hits := segHits user_core expanded_core seg.text
      let best := if acc.2.1 < hits then (some seg, hits) else (acc.1, acc.2.1)
      (best.1, best.2, acc.2.2 ++ [decide (0 < hits)]))
    (none, 0, [])

/-- `count_continuous_hits` (lines 344-347): the number of windows of
three consecutive `True` flags. -/
def contHits : List Bool → ℕ
  | a :: b :: c :: t => (if a && b && c then 1 else 0) + contHits (b :: c :: t)
  | _ => 0

/-- `score_unit` (lines 314-349). -/
def score_unit (u : CUnit) (user_core expanded_core other_terms : List Str) :
    ℚ × Option Subtitle :=
  let title := u.section_title ++ u.title
  let content := u.content_text
  if title = [] ∧ content = [] then (0, none)
  else
    let s := lexScore title content user_core expanded_core other_terms
    let scan := scanSegs user_core expanded_core u.subtitles
    (s + (contHits scan.2.2 : ℚ) * 2, scan.1)

/-! ## Episode tags and base keys (lines 351-365) -/

/-- The alternatives of `EP_TAG_RE`, in alternation order. -/
def EP_TAGS : List Str :=
  [str "（上）", str "（下）", str "(上)", str "(下)",
   str "上篇", str "下篇", str "上集", str "下集"]

/-- `EP_TAG_RE.sub("", ·)`: one left-to-right pass removing every match of
the alternation (all alternatives are nonempty and pairwise distinguished
within their first two characters, so the regex scan is deterministic). -/
def stripTagsGo : Str → ℕ → Str
  | [], _ => []
  | _ :: t, k + 1 => stripTagsGo t k
  | c :: t, 0 =>
    match EP_TAGS.find? (fun p => p.isPrefixOf (c :: t)) with
    | some p => stripTagsGo t (p.length - 1)
    | none => c :: stripTagsGo t 0

def stripTags (s : Str) : Str := stripTagsGo s 0

/-- Episode-half markers. -/
inductive ETag where
  | up : ETag
  | dn : ETag
deriving DecidableEq, Repr

/-- `get_episode_tag` (lines 352-357). -/
def get_episode_tag (title : Str) : Option ETag :=
  if title = [] then none
  else
    let t := pyStrip title
    if [str "（上）", str "(上)", str "上篇", str "上集"].any (fun p => isSub p t) then
      some ETag.up
    else if [str "（下）", str "(下)", str "下篇", str "下集"].any (fun p => isSub p t) then
      some ETag.dn
    else none

/-- Whitespace removal `re.sub(r"\s+", "", ·)`. -/
def removeWs (s : Str) : Str := s.filter (fun c => !(isWs c))

/-- `get_base_key` (lines 359-365). -/
def get_base_key (section_title title : Str) : Str :=
  let s := pyStrip section_title
  let t := pyStrip title
  removeWs s ++ str "||" ++ removeWs (stripTags t)

/-- The grouping key of a scored result. -/
def baseKeyOf (r : SR) : Str := get_base_key r.u.section_title r.u.title

/-! ## Stable sorting relations (Python `list.sort` / `sorted` are stable;
`List.insertionSort` is the stable sort) -/

/-- `results.sort(key=·._score, reverse=True)`: descending score. -/
def rScore (a b : SR) : Prop := b.score ≤ a.score

instance : DecidableRel rScore := fun a b => inferInstanceAs (Decidable (b.score ≤ a.score))

instance : IsTotal SR rScore := ⟨fun a b => le_total b.score a.score⟩

instance : IsTrans SR rScore := ⟨fun _ _ _ h1 h2 => le_trans h2 h1⟩

/-! ## Lexical search (`search_units`, lines 398-411; its `top_k`
parameter is accepted and ignored by the source, so it is omitted) -/

/-- The term sets actually searched: `normalize_query` output plus the
whole-query fallback of lines 399-400. -/
def search_terms (KD : Taxonomy) (STOP : List Str) (q : Str) : Terms :=
  let ts := normalize_query KD STOP q
  if ts.user_input_core = [] ∧ 2 ≤ q.length then
    ⟨[q], ts.category_expanded, ts.other_terms⟩
  else ts

/-- `search_units` (lines 398-411). -/
def search_units (KD : Taxonomy) (STOP : List Str) (units : List CUnit) (q : Str) : List SR :=
  let ts := search_terms KD STOP q
  if ts.user_input_core = [] ∧ ts.other_terms = [] then []
  else
    let results := units.filterMap (fun u =>
      let sb := score_unit u ts.user_input_core ts.category_expanded ts.other_terms
      if 0 < sb.1 then some ⟨u, sb.1, sb.2⟩ else none)
    List.insertionSort rScore results

/-! ## Hybrid merger (`execute_hybrid_search`, lines 731-775).
`combined_map` is a Python dict: insertion-ordered, assignment to an
existing key replaces the value in place. -/

abbrev DictSR := List (Str × SR)

/-- `combined_map[key] = r` (dict assignment). -/
def insertReplace : DictSR → Str → SR → DictSR
  | [], k, r => [(k, r)]
  | (k', v) :: t, k, r =>
    if k' = k then (k, r) :: t else (k', v) :: insertReplace t k r

/-- Dict lookup (`key in combined_map` / `combined_map[key]`). -/
def lookupA : DictSR → Str → Option SR
  | [], _ => none
  | (k', v) :: t, k => if k' = k then some v else lookupA t k

/-- `combined_map[key]["_score"] += d` (in-place score boost). -/
def boostAt : DictSR → Str → ℚ → DictSR
  | [], _, _ => []
  | (k', v) :: t, k, d =>
    if k' = k then (k', { v with score := v.score + d }) :: t
    else (k', v) :: boostAt t k d

/-- One iteration of the vector-result loop (lines 757-771):
`VECTOR_WEIGHT_BOOST = 20`, `VECTOR_WEIGHT_BASE = 10`, floor `0.25`. -/
def vecStep (m : DictSR) (r : SR) : DictSR :=
  let k := baseKeyOf r
  if (lookupA m k).isSome then boostAt m k (r.score * 20)
  else if 1/4 < r.score then m ++ [(k, { r with score := r.score * 10 })]
  else m

/-- `list(combined_map.values())` after both loops. -/
def merged_list (kw vec : List SR) : List SR :=
  (vec.foldl vecStep (kw.foldl (fun m r => insertReplace m (baseKeyOf r) r) [])).map Prod.snd

/-- The merge-and-sort core of `execute_hybrid_search` as a function of the
two result sets (the vector set is the collaborator's output). -/
def hybrid_merge (kw vec : List SR) : List SR :=
  List.insertionSort rScore (merged_list kw vec)

/-! ## Episode grouper / reorderer (`reorder_episode_pairs`, lines 367-388) -/

/-- One dict entry of `groups`. -/
structure EGroup where
  key : Str
  items : List SR
  best_score : ℚ
  first_idx : ℕ
deriving DecidableEq, Repr

/-- Processing one result in the grouping loop (lines 369-377). -/
def addR : List EGroup → Str → SR → ℕ → List EGroup
  | [], k, r, i => [⟨k, [r], r.score, i⟩]
  | g :: t, k, r, i =>
    if g.key = k then
      { g with
        items := g.items ++ [r],
        best_score := if g.best_score < r.score then r.score else g.best_score } :: t
    else g :: addR t k r i

/-- The grouping loop with its running `enumerate` index. -/
def mkGroupsGo : List EGroup → ℕ → List SR → List EGroup
  | gs, _, [] => gs
  | gs, i, r :: t => mkGroupsGo (addR gs (baseKeyOf r) r i) (i + 1) t

/-- `groups` in dict (first-insertion) order. -/
def mkGroups (rs : List SR) : List EGroup := mkGroupsGo [] 0 rs

/-- `item_rank` (lines 378-382). -/
def item_rank (r : SR) : ℕ :=
  match get_episode_tag r.u.title with
  | some ETag.up => 0
  | some ETag.dn => 1
  | none => 2

/-- Within-group order: Python sort key `(item_rank(r), -r._score)`. -/
def rItem (a b : SR) : Prop :=
  item_rank a < item_rank b ∨ (item_rank a = item_rank b ∧ b.score ≤ a.score)

instance : DecidableRel rItem := fun a b =>
  inferInstanceAs (Decidable (item_rank a < item_rank b ∨ (item_rank a = item_rank b ∧ b.score ≤ a.score)))

instance : IsTotal SR rItem := by
  constructor
  intro a b
  rcases Nat.lt_trichotomy (item_rank a) (item_rank b) with h | h | h
  · exact Or.inl (Or.inl h)
  · rcases le_total b.score a.score with h2 | h2
    · exact Or.inl (Or.inr ⟨h, h2⟩)
    · exact Or.inr (Or.inr ⟨h.symm, h2⟩)
  · exact Or.inr (Or.inl h)

instance : IsTrans SR rItem := by
  constructor
  intro a b c h1 h2
  rcases h1 with h1 | ⟨e1, s1⟩
  · rcases h2 with h2 | ⟨e2, s2⟩
    · exact Or.inl (h1.trans h2)
    · exact Or.inl (e2 ▸ h1)
  · rcases h2 with h2 | ⟨e2, s2⟩
    · exact Or.inl (e1 ▸ h2)
    · exact Or.inr ⟨e1.trans e2, s2.trans s1⟩

/-- Group order: Python `sorted(·, key=λg. (-g.best_score, g.first_idx))`. -/
def rGroup (g h : EGroup) : Prop :=
  h.best_score < g.best_score ∨ (g.best_score = h.best_score ∧ g.first_idx ≤ h.first_idx)

instance : DecidableRel rGroup := fun g h =>
  inferInstanceAs (Decidable (h.best_score < g.best_score ∨ (g.best_score = h.best_score ∧ g.first_idx ≤ h.first_idx)))

instance : IsTotal EGroup rGroup := by
  constructor
  intro a b
  rcases lt_trichotomy a.best_score b.best_score with h | h | h
  · exact Or.inr (Or.inl h)
  · rcases Nat.le_total a.first_idx b.first_idx with h2 | h2
    · exact Or.inl (Or.inr ⟨h, h2⟩)
    · exact Or.inr (Or.inr ⟨h.symm, h2⟩)
  · exact Or.inl (Or.inl h)

instance : IsTrans EGroup rGroup := by
  constructor
  intro a b c h1 h2
  rcases h1 with h1 | ⟨e1, s1⟩
  · rcases h2 with h2 | ⟨e2, s2⟩
    · exact Or.inl (h2.trans h1)
    · exact Or.inl (e2 ▸ h1)
  · rcases h2 with h2 | ⟨e2, s2⟩
    · exact Or.inl (e1 ▸ h2)
    · exact Or.inr ⟨e1.trans e2, s1.trans s2⟩

/-- In-place sort of one group's items (line 384). -/
def sortGroupItems (g : EGroup) : EGroup :=
  { g with items := List.insertionSort rItem g.items }

/-- `ordered_groups` (line 385). -/
def sortedGroups (rs : List SR) : List EGroup :=
  List.insertionSort rGroup ((mkGroups rs).map sortGroupItems)

/-- `reorder_episode_pairs` (lines 367-388). -/
def reorder_episode_pairs (rs : List SR) : List SR :=
  ((sortedGroups rs).map EGroup.items).flatten

/-! ## Response payloads.
A single record models the Python response dicts; fields absent from a
dict are the neutral defaults / `none` (the source only ever reads
`offset`, `limit`, `query_raw`, `filter_type` from stored
`course_recommendation` responses, which always carry them).  UI text
(`message`, `header_text`, translated titles), `used_model` and
`process_time` are presentation fields never read back by the engine and
are not modelled. -/

/-- A nearby support-service location (`xin_points.json` entry). -/
structure XinPoint where
  title : Str
  address : Str
  tel : Str
  coord : Option (ℚ × ℚ)
deriving DecidableEq, Repr

/-- A response payload. -/
structure Resp where
  rtype : Str
  query : Str
  total : ℕ
  video_count : ℕ
  article_count : ℕ
  offset : ℕ
  limit : ℕ
  has_more : Bool
  results : List SR
  query_raw : Option Str
  filter_type : Option Str
  address : Option Str
  points : List (XinPoint × ℚ)
deriving DecidableEq, Repr

/-- A `{"type": "text", …}` response. -/
def mkText : Resp :=
  ⟨str "text", [], 0, 0, 0, 0, 0, false, [], none, none, none, []⟩

/-- A `{"type": "xin_points", …}` response. -/
def mkXin (addr : Option Str) (pts : List (XinPoint × ℚ)) : Resp :=
  ⟨str "xin_points", [], 0, 0, 0, 0, 0, false, [], none, none, addr, pts⟩

def TOP_K : ℕ := 5

/-- `build_recommendations_response` (lines 526-729), restricted to the
data fields (the `target_lang` parameter only selects UI strings and
translated titles; the emitted `results` entries are in bijection with the
page slice, so the slice itself stands for them). -/
def build_recommendations_response (q : Str) (results : List SR) (offset limit : ℕ) : Resp :=
  if results = [] then
    ⟨str "course_recommendation", q, 0, 0, 0, offset, limit, false, [], none, none, none, []⟩
  else
    let rs := reorder_episode_pairs results
    let total := rs.length
    let v := rs.countP (fun r => !r.u.is_article)
    let a := rs.countP (fun r => r.u.is_article)
    let page := (rs.drop offset).take limit
    ⟨str "course_recommendation", q, total, v, a, offset, limit,
      decide (offset + limit < total), page, none, none, none, []⟩

/-! ## Intent detection helpers (lines 261-286, 849-864) -/

/-- The fixed pagination phrase list of `detect_pagination_intent`. -/
def paginationKeywords : List Str :=
  [str "給我後五個", str "給我下五個", str "後五個", str "下五個", str "下一頁",
   str "更多推薦", str "next 5", str "show me more", str "more results",
   str "次の5件", str "もっと見る", str "続き", str "最後の5つ", str "最後の5つをください"]

/-- `detect_pagination_intent` (lines 261-268). -/
def detect_pagination_intent (q : Str) : Bool :=
  let q' := pyStrip (lowerStr q)
  paginationKeywords.any (fun kw => isSub kw q')

/-- Python `s.split(pat)[0]` for nonempty `pat`. -/
def takeBefore : Str → Str → Str
  | [], _ => []
  | c :: t, pat => if pat.isPrefixOf (c :: t) then [] else c :: takeBefore t pat

/-- `extract_address_from_query` (lines 270-286). -/
def extract_address_from_query (q : Str) : Str :=
  let q1 := if isSub (str "附近") q then takeBefore q (str "附近") else q
  let q2 := [str "心據點", str "門診", str "看診"].foldl
    (fun s kw => if isSub kw s then takeBefore s kw else s) q1
  let q3 := pyStrip q2
  let q4 :=
    match [str "我住在", str "我住", str "家在", str "家住", str "住在",
           str "住", str "在"].find? (fun p => p.isPrefixOf q3) with
    | some p => pyStrip (q3.drop p.length)
    | none => q3
  let q5 := [str "有沒有", str "有嗎", str "嗎", str "呢", str "啊", str "啦"].foldl
    (fun s t => if t.isSuffixOf s then pyStrip (s.take (s.length - t.length)) else s) q4
  let q6 := pyStripSet q5 (str " ?？!")
  if q6.length < 4 then [] else q6

/-- The city alternation of `ADDR_HEAD_RE` (lines 23-28). -/
def cityList : List Str :=
  [str "台北市", str "臺北市", str "新北市", str "桃園市", str "臺中市", str "台中市",
   str "臺南市", str "台南市", str "高雄市", str "基隆市", str "新竹市", str "嘉義市",
   str "新竹縣", str "苗栗縣", str "彰化縣", str "南投縣", str "雲林縣", str "嘉義縣",
   str "屏東縣", str "宜蘭縣", str "花蓮縣", str "臺東縣", str "台東縣", str "澎湖縣",
   str "金門縣", str "連江縣"]

/-- `ADDR_HEAD_RE.match(q)` as a Boolean: a city-name prefix followed, before
any newline, by one of 區/鄉/鎮/市 (`^CITY(.*?(區|鄉|鎮|市))`, where `.`
excludes newlines). -/
def addrHeadMatch (q : Str) : Bool :=
  cityList.any (fun c =>
    c.isPrefixOf q &&
      ((q.drop c.length).takeWhile (fun ch => ch != '\n')).any
        (fun ch => (str "區鄉鎮市").contains ch))

/-- Media-type preferences. -/
inductive MediaPref where
  | article : MediaPref
  | video : MediaPref
deriving DecidableEq, Repr

/-- `detect_media_preference` (lines 849-852). -/
def detect_media_preference (t : Str) : Option MediaPref :=
  if [str "想看文章", str "給我文章", str "只有文章", str "文章推薦", str "找文章",
      str "只想看文章"].any (fun w => isSub w t) then some MediaPref.article
  else if [str "想看影片", str "給我影片", str "播放影片", str "影音", str "看影片",
      str "youtube", str "只想看影片"].any (fun w => isSub w t) then some MediaPref.video
  else none

/-- The media-phrase stripping loops of `chat` (lines 857-860). -/
def stripMedia (pref : Option MediaPref) (q : Str) : Str :=
  match pref with
  | some MediaPref.article =>
    [str "想看文章", str "給我文章", str "只有文章", str "文章推薦", str "找文章",
     str "只想看文章", str "文章"].foldl (fun s w => pyReplace s w []) q
  | some MediaPref.video =>
    [str "想看影片", str "給我影片", str "播放影片", str "影音", str "看影片",
     str "youtube", str "只想看影片", str "影片"].foldl (fun s w => pyReplace s w []) q
  | none => q

/-- The stored `filter_type` string of a media preference. -/
def mediaStr : Option MediaPref → Option Str
  | some MediaPref.article => some (str "article")
  | some MediaPref.video => some (str "video")
  | none => none

/-- The media filter applied to full search results (lines 921-922,
950-951, 974-979, 1058-1059). -/
def applyFilter (pref : Option Str) (rs : List SR) : List SR :=
  if pref = some (str "article") then rs.filter (fun r => r.u.is_article)
  else if pref = some (str "video") then rs.filter (fun r => !r.u.is_article)
  else rs

/-! ## Language detection (`detect_language`, lines 73-104).
The `langdetect` library call of step 5 is an oracle
(`none` models `LangDetectException`). -/

/-- The Japanese hint characters of step 1. -/
def jaHintChars : Str := str "のはですがますくださいてにを気"

/-- Hiragana/Katakana ranges of step 1. -/
def isKanaChar (c : Char) : Bool :=
  (0x3040 ≤ c.toNat && c.toNat ≤ 0x309f) || (0x30a0 ≤ c.toNat && c.toNat ≤ 0x30ff)

/-- Hangul range of step 2. -/
def isHangulChar (c : Char) : Bool := 0xac00 ≤ c.toNat && c.toNat ≤ 0xd7af

/-- CJK range of step 4 (`[一-龥]`). -/
def isCJKChar (c : Char) : Bool := 0x4e00 ≤ c.toNat && c.toNat ≤ 0x9fa5

/-- The character class removed before the pure-ASCII check of step 3. -/
def isCleanChar (c : Char) : Bool :=
  isWs c || (str "0123456789,.?!:;'\"()[]").contains c

/-- `detect_language` (lines 73-104). -/
def detect_language (oracle : Str → Option Str) (text : Str) : Str :=
  if text = [] then str "zh-TW"
  else if text.any (fun c => jaHintChars.contains c) then str "ja"
  else if text.any isKanaChar then str "ja"
  else if text.any isHangulChar then str "ko"
  else
    let clean := text.filter (fun c => !(isCleanChar c))
    if clean ≠ [] ∧ clean.all (fun c => c.toNat < 128) then str "en"
    else if text.any isCJKChar then str "zh-TW"
    else
      match oracle text with
      | some lang => if (str "zh").isPrefixOf lang then str "zh-TW" else lang
      | none => str "zh-TW"

/-! ## Session store and the chat pipeline (lines 791-1020).
`HISTORY[session_id]` for one fixed session id is a list of entries; the
two endpoints are modelled as history-transforming functions. -/

/-- One stored history entry (line 1013-1017; `/recommend` entries carry
no `detected_lang`, modelled as `none`, line 1067). -/
structure Entry where
  query : Str
  response : Resp
  detected_lang : Option Str
deriving DecidableEq, Repr

/-- The `/chat` history append with FIFO trim (lines 1012-1018). -/
def appendTrim (hist : List Entry) (e : Entry) : List Entry :=
  let l := hist ++ [e]
  if 50 < l.length then l.tail else l

def zhTW : Str := str "zh-TW"

/-- The historical-preference scan (lines 824-830): the most recent entry
whose stored language differs from zh-TW. -/
def historical_lang (hist : List Entry) : Str :=
  match hist.reverse.find? (fun h => decide (h.detected_lang.getD zhTW ≠ zhTW)) with
  | some h => h.detected_lang.getD zhTW
  | none => zhTW

/-- The response-language decision (lines 832-839). -/
def chatFinalLang (detected : Str) (isPag : Bool) (hist : List Entry) : Str :=
  if detected ≠ zhTW then detected
  else if isPag ∧ historical_lang hist ≠ zhTW then historical_lang hist
  else zhTW

/-- Python `a or b` for the stored-query fallback
`prev.get("query_raw") or prev.get("query")` (missing and empty are falsy). -/
def orStr (a : Option Str) (b : Str) : Str :=
  match a with
  | some s => if s = [] then b else s
  | none => b

/-- `next((h for h in reversed(history) if … type == "course_recommendation"), None)`
(lines 906, 938). -/
def findLastRec (hist : List Entry) : Option Entry :=
  hist.reverse.find? (fun h => h.response.rtype == str "course_recommendation")

/-- The external collaborators and startup state consumed by the engine. -/
structure Deps where
  KD : Taxonomy
  STOP : List Str
  units : List CUnit
  vecSearch : Str → List SR
  translate : Str → Str → Str
  langOracle : Str → Option Str
  geocode : Str → Option (ℚ × ℚ)
  distKm : ℚ × ℚ → ℚ × ℚ → ℚ

  points : List XinPoint

/-- `execute_hybrid_search` (lines 731-775): keyword search over the
catalog merged with the vector collaborator's results.  `search_units_semantic`
(lines 222-259) returns `[]` on every failure path (missing API key, HTTP
error, missing vectors), so `vecSearch` returning `[]` covers
`EmbeddingUnavailable`; the `model_key` fallback (lines 733-738) only
selects which vector cache backs `vecSearch`. -/
def execute_hybrid_search (D : Deps) (q : Str) : List SR :=
  hybrid_merge (search_units D.KD D.STOP D.units q) (D.vecSearch q)

/-- `find_nearby_points` (lines 470-478); the haversine distance is the
`distKm` oracle (real-valued trigonometry outside the embedding).  Points
with missing coordinates are skipped; cutoff 5 km, stable ascending sort,
top 5. -/
def rDist (a b : XinPoint × ℚ) : Prop := a.2 ≤ b.2

instance : DecidableRel rDist := fun a b => inferInstanceAs (Decidable (a.2 ≤ b.2))

instance : IsTotal (XinPoint × ℚ) rDist := ⟨fun a b => le_total a.2 b.2⟩

instance : IsTrans (XinPoint × ℚ) rDist := ⟨fun _ _ _ h1 h2 => le_trans h1 h2⟩

def find_nearby_points (D : Deps) (lat lon : ℚ) : List (XinPoint × ℚ) :=
  let cand := D.points.filterMap (fun p => p.coord.map (fun c => (p, D.distKm (lon, lat) c)))
  (List.insertionSort rDist (cand.filter (fun x => x.2 ≤ 5))).take 5

/-- `build_nearby_points_response` (lines 480-508): both branches produce a
`xin_points` response carrying the (possibly empty) point list. -/
def build_nearby_points_response (addr : Str) (results : List (XinPoint × ℚ)) : Resp :=
  mkXin (some addr) results

/-- The `/chat` endpoint core (lines 807-1020) for one session: the
response and the updated session history.  The dead recomputation of
`user_core` at lines 863-864 binds names never read afterwards and is
omitted. -/
def chat_core (D : Deps) (hist : List Entry) (query : Str) : Resp × List Entry :=
  let q_origin := pyStrip query
  let is_pagination := detect_pagination_intent q_origin
  let current_detected := detect_language D.langOracle q_origin
  let final_lang := chatFinalLang current_detected is_pagination hist
  let q_search := if final_lang ≠ zhTW then D.translate q_origin zhTW else q_origin
  let media := detect_media_preference q_search
  let q_cleaned := pyStrip (stripMedia media q_search)
  let resp :=
    if isSub (str "附近") q_search ∧
        (isSub (str "心據點") q_search ∨ isSub (str "看診") q_search ∨
          isSub (str "門診") q_search) then
      let addr := extract_address_from_query q_search
      if addr = [] then mkXin none []
      else
        match D.geocode addr with
        | none => mkXin (some addr) []
        | some c => build_nearby_points_response addr (find_nearby_points D c.1 c.2)
    else if addrHeadMatch q_search then
      match D.geocode q_search with
      | none => mkXin (some q_search) []
      | some c => build_nearby_points_response q_search (find_nearby_points D c.1 c.2)
    else if detect_pagination_intent q_search then
      if hist = [] then mkText
      else
        match findLastRec hist with
        | none => mkText
        | some h =>
          let prev := h.response
          let prev_query := orStr prev.query_raw prev.query
          let new_offset := prev.offset + prev.limit
          let full := applyFilter prev.filter_type (execute_hybrid_search D prev_query)
          let r0 := build_recommendations_response prev_query full new_offset TOP_K
          { r0 with filter_type := prev.filter_type, query_raw := some prev_query }
    else if media.isSome ∧ q_cleaned = [] then
      if hist = [] then
        ⟨str "course_recommendation", q_search, 0, 0, 0, 0, TOP_K, false, [], none, none, none, []⟩
      else
        match findLastRec hist with
        | none =>
          ⟨str "course_recommendation", q_search, 0, 0, 0, 0, TOP_K, false, [], none, none, none, []⟩
        | some h =>
          let prev := h.response
          let original_topic := orStr prev.query_raw prev.query
          let full := applyFilter (mediaStr media) (execute_hybrid_search D original_topic)
          let r0 := build_recommendations_response original_topic full 0 TOP_K
          { r0 with filter_type := mediaStr media, query_raw := some original_topic }
    else
      let search_q := if q_cleaned ≠ [] then q_cleaned else q_search
      let full := applyFilter (mediaStr media) (execute_hybrid_search D search_q)
      let r0 := build_recommendations_response q_origin full 0 TOP_K
      { r0 with filter_type := mediaStr media, query_raw := some search_q }
  (resp, appendTrim hist ⟨q_origin, resp, some final_lang⟩)

/-- The `/recommend` endpoint core (lines 1046-1068): same search pipeline,
but the history append at lines 1066-1067 has no FIFO trim and stores no
`detected_lang`. -/
def recommend_core (D : Deps) (hist : List Entry) (query : Str) : Resp × List Entry :=
  let q := pyStrip query
  let pref : Option Str :=
    if isSub (str "文章") q then some (str "article")
    else if isSub (str "影片") q then some (str "video")
    else none
  let full := applyFilter pref (execute_hybrid_search D q)
  let resp := build_recommendations_response q full 0 TOP_K
  (resp, hist ++ [⟨q, resp, none⟩])

/-! ## Concrete instances used by witnesses and counterexamples -/

/-- A one-category toy taxonomy (the deployed `keywords.json` is external
configuration; the claims' failures below are taxonomy-generic). -/
def taxC : Taxonomy := [(str "悲傷類", [str "悲傷"])]

/-- Three catalog units whose titles all contain the keyword 悲傷 and whose
base keys are pairwise distinct. -/
def unitA : CUnit := ⟨str "課一", str "悲傷甲", [], [], false⟩

def unitB : CUnit := ⟨str "課二", str "悲傷乙", [], [], false⟩

def unitC : CUnit := ⟨str "課三", str "悲傷丙", [], [], false⟩

/-- Concrete dependencies: the toy taxonomy and catalog, an unavailable
embedding collaborator (`vecSearch ≡ []`), identity translation, failing
langdetect and geocoder, no service points. -/
def depsC : Deps :=
  ⟨taxC, [], [unitA, unitB, unitC], fun _ => [], fun s _ => s, fun _ => none,
   fun _ => none, fun _ _ => 0, []⟩

/-! ## Claim C1: pagination arithmetic of `build_recommendations_response` -/

/-- C1, counterexample.  A first `/chat` turn for 悲傷 finds 3 results
(offset 0, limit 5, `has_more = false`); a pagination turn 下一頁 then
recomputes the same 3 results and re-slices at
`new_offset = previousOffset + previousLimit = 5`, producing a
`course_recommendation` response with `offset = 5`, `results = []`,
`total = 3` — so `offset + len(results) = 5 > 3 = total`, refuting
`response.offset + len(response.results) ≤ response.total`. -/
theorem claim_C1_counterexample :
    ((chat_core depsC ((chat_core depsC [] (str "悲傷")).2) (str "下一頁")).1.rtype =
        str "course_recommendation") ∧
    ((chat_core depsC ((chat_core depsC [] (str "悲傷")).2) (str "下一頁")).1.offset = 5) ∧
    ((chat_core depsC ((chat_core depsC [] (str "悲傷")).2) (str "下一頁")).1.total = 3) ∧
    ¬ ((chat_core depsC ((chat_core depsC [] (str "悲傷")).2) (str "下一頁")).1.offset +
        (chat_core depsC ((chat_core depsC [] (str "悲傷")).2) (str "下一頁")).1.results.length ≤
        (chat_core depsC ((chat_core depsC [] (str "悲傷")).2) (str "下一頁")).1.total) := by
  refine ⟨by decide, by decide, by decide, by decide⟩

/-- C1 (amended): for every response built by
`build_recommendations_response`, `has_more` is true exactly when
`offset + limit < total`; and `offset + len(results) ≤ total` holds
whenever `offset ≤ total` (which covers every first-page response, but a
pagination-continuation offset `previousOffset + previousLimit` may
exceed the recomputed total, in which case the page is empty and
`offset + len(results) = offset > total`). -/
theorem claim_C1_amended (q : Str) (results : List SR) (offset limit : ℕ) (r : Resp)
    (hr : r = build_recommendations_response q results offset limit) :
    (r.has_more = true ↔ r.offset + r.limit < r.total) ∧
    (r.offset ≤ r.total → r.offset + r.results.length ≤ r.total) := by
  subst hr
  by_cases h : results = []
  · simp [build_recommendations_response, h]
  · simp only [build_recommendations_response, if_neg h]
    refine ⟨by simp, fun hle => ?_⟩
    simp only [List.length_take, List.length_drop] at hle ⊢
    omega

/-- C1, witness: the amended theorem at a concrete one-result first page. -/
theorem claim_C1_witness :
    (build_recommendations_response (str "悲傷") [⟨unitA, 10, none⟩] 0 5).offset +
      (build_recommendations_response (str "悲傷") [⟨unitA, 10, none⟩] 0 5).results.length ≤
      (build_recommendations_response (str "悲傷") [⟨unitA, 10, none⟩] 0 5).total :=
  (claim_C1_amended (str "悲傷") [⟨unitA, 10, none⟩] 0 5 _ rfl).2 (by decide)

/-! ## Claim C10: response-language decision (lines 819-847) -/

/-- The most-recent-non-zh-TW scan evaluated on an explicitly split
history: entries after `h` all zh-TW, `h` not zh-TW. -/
theorem historical_lang_split (h1 h2 : List Entry) (h : Entry)
    (hh : h.detected_lang.getD zhTW ≠ zhTW)
    (hafter : ∀ x ∈ h2, x.detected_lang.getD zhTW = zhTW) :
    historical_lang (h1 ++ h :: h2) = h.detected_lang.getD zhTW := by
  unfold historical_lang
  have hrev : (h1 ++ h :: h2).reverse = h2.reverse ++ h :: h1.reverse := by
    simp
  rw [hrev, List.find?_append]
  have hnone : h2.reverse.find? (fun e => decide (e.detected_lang.getD zhTW ≠ zhTW)) = none := by
    apply List.find?_eq_none.mpr
    intro x hx
    simp only [List.mem_reverse] at hx
    simp [hafter x hx]
  rw [hnone, List.find?_cons_of_pos _ (by simpa using hh)]
  rfl

/-- When every stored language is zh-TW the scan falls back to zh-TW. -/
theorem historical_lang_all_zh (hist : List Entry)
    (hall : ∀ x ∈ hist, x.detected_lang.getD zhTW = zhTW) :
    historical_lang hist = zhTW := by
  unfold historical_lang
  have hnone : hist.reverse.find? (fun e => decide (e.detected_lang.getD zhTW ≠ zhTW)) = none := by
    apply List.find?_eq_none.mpr
    intro x hx
    simp only [List.mem_reverse] at hx
    simp [hall x hx]
  rw [hnone]

/-- C10: the response language of a `/chat` turn.  (1) A turn whose query is
detected as anything other than zh-TW is answered in the detected
language.  (2) A zh-TW-detected turn matching a pagination phrase, with a
history containing a non-zh-TW entry, is answered in the most recent such
stored language.  (3) Every other zh-TW-detected turn (no pagination
phrase, or an all-zh-TW history) is answered in zh-TW. -/
theorem claim_C10_language (oracle : Str → Option Str) (q : Str) (hist : List Entry) :
    (detect_language oracle q ≠ zhTW →
      chatFinalLang (detect_language oracle q) (detect_pagination_intent q) hist =
        detect_language oracle q) ∧
    (detect_language oracle q = zhTW → detect_pagination_intent q = true →
      ∀ h1 h2 (h : Entry), hist = h1 ++ h :: h2 →
        h.detected_lang.getD zhTW ≠ zhTW →
        (∀ x ∈ h2, x.detected_lang.getD zhTW = zhTW) →
        chatFinalLang (detect_language oracle q) (detect_pagination_intent q) hist =
          h.detected_lang.getD zhTW) ∧
    (detect_language oracle q = zhTW →
      (detect_pagination_intent q = false ∨ ∀ x ∈ hist, x.detected_lang.getD zhTW = zhTW) →
      chatFinalLang (detect_language oracle q) (detect_pagination_intent q) hist = zhTW) := by
  refine ⟨fun hne => ?_, fun hzh hpag h1 h2 h hsplit hh hafter => ?_, fun hzh hcase => ?_⟩
  · unfold chatFinalLang
    rw [if_pos hne]
  · subst hsplit
    unfold chatFinalLang
    rw [if_neg (by simp [hzh]), if_pos]
    · exact historical_lang_split h1 h2 h hh hafter
    · exact ⟨by simp [hpag], by rw [historical_lang_split h1 h2 h hh hafter]; exact hh⟩
  · unfold chatFinalLang
    rw [if_neg (by simp [hzh])]
    rcases hcase with hp | hall
    · rw [if_neg]
      simp [hp]
    · rw [if_neg]
      rw [historical_lang_all_zh hist hall]
      simp

/-- C10, witness: a zh-TW pagination turn after a Japanese turn is answered
in Japanese. -/
theorem claim_C10_witness :
    chatFinalLang (detect_language (fun _ => none) (str "下一頁"))
      (detect_pagination_intent (str "下一頁")) [⟨[], mkText, some (str "ja")⟩] = str "ja" :=
  (claim_C10_language (fun _ => none) (str "下一頁") [⟨[], mkText, some (str "ja")⟩]).2.1
    (by decide) (by decide) [] [] ⟨[], mkText, some (str "ja")⟩ rfl (by decide)
    (by intro x hx; cases hx)

/-! ## Claim C3: the 50-entry session-history bound -/

/-- `n` successive `/recommend` turns on one session, starting empty. -/
def recommendIter (n : ℕ) : List Entry :=
  Nat.rec (motive := fun _ => List Entry) []
    (fun _ ih => (recommend_core depsC ih (str "hi")).2) n

/-- C3, counterexample.  The `/recommend` endpoint appends to the same
session store with no FIFO trim (lines 1066-1067): after 51 appends the
history holds 51 entries — exceeding the claimed 50-entry cap — and the
first entry is still present (as the head), not evicted. -/
theorem claim_C3_counterexample :
    ¬ ((recommendIter 51).length ≤ 50) ∧
    (recommendIter 51).headD ⟨[], mkText, none⟩ =
      ⟨str "hi", build_recommendations_response (str "hi") [] 0 TOP_K, none⟩ := by
  exact ⟨by decide, by decide⟩

/-- The `/chat` append (lines 1012-1018) keeps the bound. -/
theorem appendTrim_length (hist : List Entry) (e : Entry) (h : hist.length ≤ 50) :
    (appendTrim hist e).length ≤ 50 := by
  show (if 50 < (hist ++ [e]).length then (hist ++ [e]).tail else hist ++ [e]).length ≤ 50
  split
  · simp
    exact h
  · simp_all

/-- The `/chat` append at a full history evicts exactly the oldest entry. -/
theorem appendTrim_fifo (hist : List Entry) (e : Entry) (h : hist.length = 50) :
    appendTrim hist e = hist.tail ++ [e] := by
  show (if 50 < (hist ++ [e]).length then (hist ++ [e]).tail else hist ++ [e]) = hist.tail ++ [e]
  rw [if_pos (by simp [h])]
  cases hist with
  | nil => simp at h
  | cons a t => simp

/-- C3 (amended): the `/chat` endpoint preserves the 50-entry bound and
evicts FIFO at the cap; the `/recommend` endpoint appends without the trim,
so its session's history can exceed 50 entries and never evicts. -/
theorem claim_C3_amended (D : Deps) (hist : List Entry) (q : Str)
    (h50 : hist.length ≤ 50) :
    ((chat_core D hist q).2.length ≤ 50) ∧
    (hist.length = 50 → ∃ e, (chat_core D hist q).2 = hist.tail ++ [e]) := by
  have h2 : (chat_core D hist q).2 =
      appendTrim hist ⟨pyStrip q, (chat_core D hist q).1,
        some (chatFinalLang (detect_language D.langOracle (pyStrip q))
          (detect_pagination_intent (pyStrip q)) hist)⟩ := rfl
  rw [h2]
  refine ⟨appendTrim_length _ _ h50, fun hfull => ⟨_, appendTrim_fifo _ _ hfull⟩⟩

/-- C3, witness: the amended theorem at a concrete 50-entry history. -/
theorem claim_C3_witness :
    (chat_core depsC (List.replicate 50 ⟨[], mkText, none⟩) (str "悲傷")).2.length ≤ 50 :=
  (claim_C3_amended depsC (List.replicate 50 ⟨[], mkText, none⟩) (str "悲傷") (by decide)).1

/-! ## Claim C2: there is no SpecialAdvice route -/

/-- Every branch of `build_recommendations_response` is a
`course_recommendation`. -/
theorem build_rtype (q : Str) (rs : List SR) (o l : ℕ) :
    (build_recommendations_response q rs o l).rtype = str "course_recommendation" := by
  unfold build_recommendations_response
  split <;> rfl

/-- C2 (amended): the `/chat` router has no SpecialAdvice state: every
turn — for every dependency bundle, history and query — is answered with a
response of type `xin_points`, `text` or `course_recommendation`; in
particular no turn ever yields a response of type `advice`, and queries
matching the curated scenario wordings run the general search pipeline. -/
theorem claim_C2_amended (D : Deps) (hist : List Entry) (q : Str) :
    (chat_core D hist q).1.rtype = str "xin_points" ∨
    (chat_core D hist q).1.rtype = str "text" ∨
    (chat_core D hist q).1.rtype = str "course_recommendation" := by
  unfold chat_core
  dsimp only
  repeat' split
  all_goals simp [mkXin, mkText, build_nearby_points_response, build_rtype]

/-- C2, counterexample: the curated "depression + considering seeing a
doctor" scenario query is answered by the general recommendation pipeline
with response type `course_recommendation`, not by a pre-authored `advice`
document — no `advice` response exists in the router. -/
theorem claim_C2_counterexample :
    (chat_core depsC [] (str "我有憂鬱症，正在考慮要不要去看醫生")).1.rtype =
      str "course_recommendation" ∧
    (chat_core depsC [] (str "我有憂鬱症，正在考慮要不要去看醫生")).1.rtype ≠ str "advice" := by
  exact ⟨by decide, by decide⟩

/-! ## Claims C4 and C5: the lexical scorer -/

/-- Spec-side per-segment predicate: the segment text contains a user-core
hit or an expanded hit (the condition the code's `has_core` flag actually
tracks, lines 336-339). -/
def segTopical (user_core expanded_core : List Str) (t : Str) : Bool :=
  user_core.any (fun kw => isSub kw t) || expanded_core.any (fun kw => isSub kw t)

/-- Spec-side window count: the number of indices `i` at which three
consecutive flags are all set. -/
def windowCount (l : List Bool) : ℕ :=
  (List.range (l.length - 2)).countP
    (fun i => l.getD i false && l.getD (i + 1) false && l.getD (i + 2) false)

/-- The recursive window scan agrees with the indexed window count. -/
theorem contHits_eq_windowCount (l : List Bool) : contHits l = windowCount l := by
  induction l with
  | nil => rfl
  | cons a t ih =>
    match t with
    | [] => rfl
    | [b] => rfl
    | b :: c :: t' =>
      show (if a && b && c then 1 else 0) + contHits (b :: c :: t') =
        windowCount (a :: b :: c :: t')
      rw [ih]
      unfold windowCount
      have h3 : (a :: b :: c :: t').length - 2 = ((b :: c :: t').length - 2) + 1 := by
        simp
      rw [h3, List.range_succ_eq_map, List.countP_cons, List.countP_map]
      have hcong : List.countP
          ((fun i => (a :: b :: c :: t').getD i false &&
            (a :: b :: c :: t').getD (i + 1) false &&
            (a :: b :: c :: t').getD (i + 2) false) ∘ Nat.succ)
          (List.range ((b :: c :: t').length - 2)) =
        List.countP (fun i => (b :: c :: t').getD i false &&
            (b :: c :: t').getD (i + 1) false && (b :: c :: t').getD (i + 2) false)
          (List.range ((b :: c :: t').length - 2)) := by
        apply List.countP_congr
        intro i _
        exact Iff.rfl
      rw [hcong]
      simp only [List.getD_cons_zero, List.getD_cons_succ]
      exact Nat.add_comm _ _

/-- A positive per-segment hit weight is exactly a core-or-expanded hit. -/
theorem segHits_pos_iff (c e : List Str) (t : Str) :
    decide (0 < segHits c e t) = segTopical c e t := by
  unfold segHits segTopical
  by_cases h : c.countP (fun kw => isSub kw t) = 0
  · have hc : c.any (fun kw => isSub kw t) = false := by
      rcases List.countP_eq_zero.mp h with hz
      simp only [List.any_eq_false]
      intro kw hkw
      simpa using hz kw hkw
    simp only [h, if_pos rfl, hc, Bool.false_or]
    by_cases he : e.countP (fun kw => isSub kw t) = 0
    · have hce : e.any (fun kw => isSub kw t) = false := by
        rcases List.countP_eq_zero.mp he with hz
        simp only [List.any_eq_false]
        intro kw hkw
        simpa using hz kw hkw
      simp [he, hce]
    · have hce : e.any (fun kw => isSub kw t) = true := by
        rcases List.countP_pos_iff.mp (Nat.pos_of_ne_zero he) with ⟨kw, hkw, hp⟩
        exact List.any_eq_true.mpr ⟨kw, hkw, hp⟩
      simp only [hce, Bool.or_true]
      have hpos : (0:ℚ) < (e.countP (fun kw => isSub kw t) : ℚ) * (1/2) := by
        have h1 : 0 < e.countP (fun kw => isSub kw t) := Nat.pos_of_ne_zero he
        positivity
      simpa using hpos
  · have hc : c.any (fun kw => isSub kw t) = true := by
      rcases List.countP_pos_iff.mp (Nat.pos_of_ne_zero h) with ⟨kw, hkw, hp⟩
      exact List.any_eq_true.mpr ⟨kw, hkw, hp⟩
    have hpos : (0:ℚ) < (c.countP (fun kw => isSub kw t) : ℚ) := by
      exact_mod_cast Nat.pos_of_ne_zero h
    simp [h, hc, hpos]

/-- The flag list accumulated by the subtitle scan, with a generalized
accumulator. -/
theorem scanSegs_flags_aux (c e : List Str) (subs : List Subtitle)
    (b : Option Subtitle) (q : ℚ) (l : List Bool) :
    (subs.foldl
      (fun acc seg =>
        let hits := segHits c e seg.text
        let best := if acc.2.1 < hits then (some seg, hits) else (acc.1, acc.2.1)
        (best.1, best.2, acc.2.2 ++ [decide (0 < hits)]))
      (b, q, l)).2.2 =
      l ++ subs.map (fun s => decide (0 < segHits c e s.text)) := by
  induction subs generalizing b q l with
  | nil => simp
  | cons s t ih =>
    simp only [List.foldl_cons, List.map_cons]
    rw [ih]
    simp

/-- The `has_core_list` built by `scanSegs` is the per-segment flag map. -/
theorem scanSegs_flags (c e : List Str) (subs : List Subtitle) :
    (scanSegs c e subs).2.2 = subs.map (fun s => decide (0 < segHits c e s.text)) := by
  unfold scanSegs
  simpa using scanSegs_flags_aux c e subs none 0 []

/-- Decomposition of `score_unit`: lexical part plus twice the
core-or-expanded window count. -/
theorem score_unit_decomp (u : CUnit) (c e o : List Str)
    (h : ¬ (u.section_title ++ u.title = [] ∧ u.content_text = [])) :
    (score_unit u c e o).1 =
      lexScore (u.section_title ++ u.title) u.content_text c e o +
        (windowCount (u.subtitles.map (fun s => segTopical c e s.text)) : ℚ) * 2 := by
  have hflags : (scanSegs c e u.subtitles).2.2 =
      u.subtitles.map (fun s => segTopical c e s.text) := by
    rw [scanSegs_flags]
    exact List.map_congr_left (fun s _ => segHits_pos_iff c e s.text)
  have hval : (score_unit u c e o).1 =
      lexScore (u.section_title ++ u.title) u.content_text c e o +
        (contHits (scanSegs c e u.subtitles).2.2 : ℚ) * 2 := by
    unfold score_unit
    rw [if_neg h]
  rw [hval, hflags, contHits_eq_windowCount]


/-- C4 (amended): for every unit with a non-empty (concatenated) title or
body and every term set, the continuity bonus added by `score_unit` equals
2 times the number of windows of three consecutive subtitle segments in
which each segment has at least one `userCore` hit **or, when it has no
core hit, at least one expanded-term hit** (the code's `has_core` flag,
lines 336-339, falls back to expanded hits). -/
theorem claim_C4_amended (u : CUnit) (c e o : List Str)
    (h : ¬ (u.section_title ++ u.title = [] ∧ u.content_text = [])) :
    (score_unit u c e o).1 =
      lexScore (u.section_title ++ u.title) u.content_text c e o +
        (windowCount (u.subtitles.map (fun s => segTopical c e s.text)) : ℚ) * 2 :=
  score_unit_decomp u c e o h

/-- C4, witness: the amended theorem at a unit whose three segments carry
only expanded hits (bonus 2, lexical part 0). -/
theorem claim_C4_witness :
    (score_unit ⟨str "t", [], [], [⟨str "bb", 0⟩, ⟨str "bb", 0⟩, ⟨str "bb", 0⟩], false⟩
        [str "aa"] [str "bb"] []).1 =
      lexScore (str "t" ++ []) [] [str "aa"] [str "bb"] [] +
        (windowCount ([⟨str "bb", 0⟩, ⟨str "bb", 0⟩, ⟨str "bb", 0⟩].map
          (fun s : Subtitle => segTopical [str "aa"] [str "bb"] s.text)) : ℚ) * 2 :=
  claim_C4_amended ⟨str "t", [], [], [⟨str "bb", 0⟩, ⟨str "bb", 0⟩, ⟨str "bb", 0⟩], false⟩
    [str "aa"] [str "bb"] [] (by decide)

/-- The number of core-hit-only windows, exactly as claim C4 words the
bonus ("each of the three segments has at least one userCore hit"). -/
def windowCountCoreOnly (c : List Str) (subs : List Subtitle) : ℕ :=
  windowCount (subs.map (fun s => c.any (fun kw => isSub kw s.text)))

/-- C4, counterexample: a unit with three consecutive segments holding only
expanded-term hits.  The code awards the continuity bonus (+2, total score
2) although no segment has a userCore hit, so the bonus is not
`2 × (core-hit windows) = 0`. -/
theorem claim_C4_counterexample :
    ((score_unit ⟨str "t", [], [], [⟨str "bb", 0⟩, ⟨str "bb", 0⟩, ⟨str "bb", 0⟩], false⟩
        [str "aa"] [str "bb"] []).1 = 2) ∧
    lexScore (str "t" ++ []) [] [str "aa"] [str "bb"] [] = 0 ∧
    windowCountCoreOnly [str "aa"]
        [⟨str "bb", 0⟩, ⟨str "bb", 0⟩, ⟨str "bb", 0⟩] = 0 := by
  exact ⟨by decide, by decide, by decide⟩
/-- Accumulating a sum over a list (the shape of the three scoring loops). -/
theorem foldl_add_eq (f : Str → ℚ) (a : ℚ) (l : List Str) :
    l.foldl (fun acc kw => acc + f kw) a = a + (l.map f).sum := by
  induction l generalizing a with
  | nil => simp
  | cons c t ih => simp [ih, add_assoc]

/-- `lexTerm` without the redundant positivity guard (`cnt * w = 0` when
`cnt = 0`). -/
theorem lexTerm_eq (T C : Str) (tw cw : ℚ) (kw : Str) :
    lexTerm T C tw cw kw =
      (if isSub kw T then tw else 0) + (pyCount C kw : ℚ) * cw := by
  unfold lexTerm
  by_cases hc : 0 < pyCount C kw
  · rw [if_pos hc]
  · rw [if_neg hc]
    have h0 : pyCount C kw = 0 := by omega
    simp [h0]

/-- Claim C5's lexical formula read literally: the title bonus tested
against the unit's `title` field alone. -/
def lexSpecClaim (u : CUnit) (c e o : List Str) : ℚ :=
  (c.map (fun kw => (if isSub kw u.title then (10:ℚ) else 0) +
    (pyCount u.content_text kw : ℚ) * 4)).sum +
  (e.map (fun kw => (if isSub kw u.title then (5:ℚ) else 0) +
    (pyCount u.content_text kw : ℚ) * 2)).sum +
  (o.map (fun kw => (if isSub kw u.title then (1:ℚ) else 0) +
    (pyCount u.content_text kw : ℚ) * (1/2))).sum

/-- The amended lexical formula: the title bonus tested against
`sectionTitle ++ title`, which is what the code's `title` variable holds
(line 315: `title = (unit.get("section_title") or "") + (unit.get("title") or "")`). -/
def lexSpecConcat (u : CUnit) (c e o : List Str) : ℚ :=
  (c.map (fun kw => (if isSub kw (u.section_title ++ u.title) then (10:ℚ) else 0) +
    (pyCount u.content_text kw : ℚ) * 4)).sum +
  (e.map (fun kw => (if isSub kw (u.section_title ++ u.title) then (5:ℚ) else 0) +
    (pyCount u.content_text kw : ℚ) * 2)).sum +
  (o.map (fun kw => (if isSub kw (u.section_title ++ u.title) then (1:ℚ) else 0) +
    (pyCount u.content_text kw : ℚ) * (1/2))).sum

/-- C5 (amended): for every unit with non-empty text and every term set,
the lexical part of the score is the per-term sum — 10 for a title hit
plus 4 per body occurrence for user-core terms, 5/2 for expanded terms,
1/0.5 for other terms — where "title" is the concatenation
`sectionTitle ++ title` (not the title alone, as the claim reads), and the
total score is that sum plus the continuity bonus. -/
theorem claim_C5_amended (u : CUnit) (c e o : List Str)
    (h : ¬ (u.section_title ++ u.title = [] ∧ u.content_text = [])) :
    lexScore (u.section_title ++ u.title) u.content_text c e o = lexSpecConcat u c e o ∧
    (score_unit u c e o).1 = lexSpecConcat u c e o +
      (windowCount (u.subtitles.map (fun s => segTopical c e s.text)) : ℚ) * 2 := by
  have hlex : lexScore (u.section_title ++ u.title) u.content_text c e o =
      lexSpecConcat u c e o := by
    unfold lexScore lexSpecConcat
    rw [foldl_add_eq, foldl_add_eq, foldl_add_eq]
    rw [List.map_congr_left
      (fun kw _ => lexTerm_eq (u.section_title ++ u.title) u.content_text 10 4 kw)]
    rw [List.map_congr_left
      (fun kw _ => lexTerm_eq (u.section_title ++ u.title) u.content_text 5 2 kw)]
    rw [List.map_congr_left
      (fun kw _ => lexTerm_eq (u.section_title ++ u.title) u.content_text 1 (1/2) kw)]
    ring
  refine ⟨hlex, ?_⟩
  rw [score_unit_decomp u c e o h, hlex]

/-- C5, witness: the amended theorem at a concrete unit whose section
title carries the core term. -/
theorem claim_C5_witness :
    lexScore ((⟨str "悲傷", str "第一課", [], [], false⟩ : CUnit).section_title ++
        (⟨str "悲傷", str "第一課", [], [], false⟩ : CUnit).title)
      (⟨str "悲傷", str "第一課", [], [], false⟩ : CUnit).content_text [str "悲傷"] [] [] =
      lexSpecConcat ⟨str "悲傷", str "第一課", [], [], false⟩ [str "悲傷"] [] [] :=
  (claim_C5_amended ⟨str "悲傷", str "第一課", [], [], false⟩ [str "悲傷"] [] [] (by decide)).1

/-- C5, counterexample: a unit whose core term 悲傷 occurs only in the
section title.  The code scores it 10 (title bonus against
`sectionTitle ++ title`), while the claim's per-term formula — which tests
presence in the unit's title — yields 0. -/
theorem claim_C5_counterexample :
    (score_unit ⟨str "悲傷", str "第一課", [], [], false⟩ [str "悲傷"] [] []).1 = 10 ∧
    lexSpecClaim ⟨str "悲傷", str "第一課", [], [], false⟩ [str "悲傷"] [] [] = 0 := by
  exact ⟨by decide, by decide⟩

/-! ## Claim C9: lexical-only degradation of the hybrid merger -/

/-- Inserting a fresh key into the dict appends it. -/
theorem insertReplace_append (m : DictSR) (k : Str) (r : SR)
    (h : k ∉ m.map Prod.fst) :
    insertReplace m k r = m ++ [(k, r)] := by
  induction m with
  | nil => rfl
  | cons p t ih =>
    obtain ⟨k', v⟩ := p
    simp only [List.map_cons, List.mem_cons] at h
    push_neg at h
    unfold insertReplace
    rw [if_neg (fun he => h.1 he.symm)]
    rw [ih h.2]
    simp

/-- Folding key-distinct results into an empty-intersection dict just
lists them. -/
theorem kwFold_eq (kw : List SR) (acc : DictSR)
    (hdisj : ∀ r ∈ kw, baseKeyOf r ∉ acc.map Prod.fst)
    (h : (kw.map baseKeyOf).Nodup) :
    kw.foldl (fun m r => insertReplace m (baseKeyOf r) r) acc =
      acc ++ kw.map (fun r => (baseKeyOf r, r)) := by
  induction kw generalizing acc with
  | nil => simp
  | cons r t ih =>
    simp only [List.foldl_cons, List.map_cons]
    rw [insertReplace_append acc (baseKeyOf r) r (hdisj r (by simp))]
    have hnodup : baseKeyOf r ∉ t.map baseKeyOf ∧ (t.map baseKeyOf).Nodup := by
      rw [List.map_cons, List.nodup_cons] at h
      exact h
    rw [ih (acc ++ [(baseKeyOf r, r)]) ?_ hnodup.2]
    · simp
    · intro x hx
      simp only [List.map_append, List.mem_append, List.map_cons, List.map_nil]
      rintro (hacc | hone)
      · exact hdisj x (by simp [hx]) hacc
      · simp only [List.mem_singleton] at hone
        exact hnodup.1 (hone ▸ List.mem_map_of_mem baseKeyOf hx)

/-- With no vector results and key-distinct lexical results, the merged
dict values are exactly the lexical results. -/
theorem merged_list_nil (kw : List SR) (h : (kw.map baseKeyOf).Nodup) :
    merged_list kw [] = kw := by
  unfold merged_list
  rw [List.foldl_nil, kwFold_eq kw [] (by simp) h]
  simp only [List.nil_append]
  rw [List.map_map]
  exact (List.map_congr_left fun r _ => rfl).trans (List.map_id kw)

/-- `search_units` output is sorted by descending score. -/
theorem search_units_sorted (KD : Taxonomy) (STOP : List Str) (units : List CUnit) (q : Str) :
    List.Sorted rScore (search_units KD STOP units q) := by
  unfold search_units
  dsimp only
  split
  · exact List.sorted_nil
  · exact List.sorted_insertionSort rScore _

/-- C9 (amended): when the embedding collaborator is unavailable or
returns no results (`search_units_semantic` returns `[]` on every failure
path), the hybrid search returns exactly the lexical-only ranking,
**provided the lexical results have pairwise distinct base keys**; there
is no error path.  (When two lexical results share a base key — e.g. the
two halves of an episode pair — the merger's dict keeps only the last of
them, so the output is the lexical ranking deduplicated by base key, not
the lexical ranking itself.) -/
theorem claim_C9_amended (D : Deps) (q : Str)
    (hvec : D.vecSearch q = [])
    (hnodup : ((search_units D.KD D.STOP D.units q).map baseKeyOf).Nodup) :
    execute_hybrid_search D q = search_units D.KD D.STOP D.units q := by
  unfold execute_hybrid_search hybrid_merge
  rw [hvec, merged_list_nil _ hnodup]
  exact (search_units_sorted D.KD D.STOP D.units q).insertionSort_eq

/-- C9, witness: the amended theorem on the three-unit catalog with
distinct base keys and an unavailable embedding collaborator. -/
theorem claim_C9_witness :
    execute_hybrid_search depsC (str "悲傷") =
      search_units depsC.KD depsC.STOP depsC.units (str "悲傷") :=
  claim_C9_amended depsC (str "悲傷") rfl (by decide)

def unitUp : CUnit := ⟨str "課", str "悲傷（上）", [], [], false⟩

def unitDn : CUnit := ⟨str "課", str "悲傷（下）", [], [], false⟩

/-- Dependencies whose catalog is an episode pair sharing one base key,
with the embedding collaborator unavailable. -/
def depsPair : Deps :=
  ⟨taxC, [], [unitUp, unitDn], fun _ => [], fun s _ => s, fun _ => none,
   fun _ => none, fun _ _ => 0, []⟩

/-- C9, counterexample: with the vector collaborator unavailable, the
lexical ranking holds both halves of an episode pair (2 results), but the
hybrid search collapses them under their shared base key and returns only
the last one — not "exactly the lexical-only ranking". -/
theorem claim_C9_counterexample :
    (search_units depsPair.KD depsPair.STOP depsPair.units (str "悲傷")).length = 2 ∧
    (execute_hybrid_search depsPair (str "悲傷")).length = 1 ∧
    execute_hybrid_search depsPair (str "悲傷") ≠
      search_units depsPair.KD depsPair.STOP depsPair.units (str "悲傷") := by
  exact ⟨by decide, by decide, by decide⟩

/-! ## Claim C6: the hybrid merger -/

/-- A successful dict lookup is a membership. -/
theorem lookupA_mem : ∀ (m : DictSR) (k : Str) (v : SR),
    lookupA m k = some v → (k, v) ∈ m := by
  intro m
  induction m with
  | nil => intro k v h; cases h
  | cons p t ih =>
    intro k v h
    obtain ⟨k', v'⟩ := p
    unfold lookupA at h
    by_cases he : k' = k
    · rw [if_pos he] at h
      cases h
      subst he
      exact List.mem_cons_self _ _
    · rw [if_neg he] at h
      exact List.mem_cons_of_mem _ (ih k v h)

/-- Looking up a present key in the listed dict of a key-distinct result
list finds that result. -/
theorem lookupA_map_pair (kw : List SR) (a : SR)
    (hn : (kw.map baseKeyOf).Nodup) (ha : a ∈ kw) :
    lookupA (kw.map (fun r => (baseKeyOf r, r))) (baseKeyOf a) = some a := by
  induction kw with
  | nil => cases ha
  | cons r t ih =>
    have hn' : baseKeyOf r ∉ t.map baseKeyOf ∧ (t.map baseKeyOf).Nodup := by
      rw [List.map_cons, List.nodup_cons] at hn
      exact hn
    rcases List.mem_cons.mp ha with rfl | hat
    · unfold lookupA
      simp
    · have hne : baseKeyOf r ≠ baseKeyOf a := by
        intro he
        exact hn'.1 (he ▸ List.mem_map_of_mem baseKeyOf hat)
      show lookupA ((baseKeyOf r, r) :: t.map (fun r => (baseKeyOf r, r))) (baseKeyOf a) = some a
      unfold lookupA
      rw [if_neg hne]
      exact ih hn'.2 hat

/-- Looking up an absent key in the listed dict fails. -/
theorem lookupA_map_pair_none (kw : List SR) (k : Str)
    (hk : k ∉ kw.map baseKeyOf) :
    lookupA (kw.map (fun r => (baseKeyOf r, r))) k = none := by
  induction kw with
  | nil => rfl
  | cons r t ih =>
    simp only [List.map_cons, List.mem_cons] at hk
    push_neg at hk
    show lookupA ((baseKeyOf r, r) :: t.map (fun r => (baseKeyOf r, r))) k = none
    unfold lookupA
    rw [if_neg (fun he => hk.1 he.symm)]
    exact ih hk.2

/-- Unfolding equation for `lookupA` on a cons cell. -/
theorem lookupA_cons (k' : Str) (v : SR) (t : DictSR) (k : Str) :
    lookupA ((k', v) :: t) k = if k' = k then some v else lookupA t k := rfl

/-- Unfolding equation for `boostAt` on a cons cell. -/
theorem boostAt_cons (k' : Str) (v : SR) (t : DictSR) (k : Str) (d : ℚ) :
    boostAt ((k', v) :: t) k d =
      if k' = k then (k', { v with score := v.score + d }) :: t
      else (k', v) :: boostAt t k d := rfl

/-- Boosting one key leaves lookups of other keys unchanged. -/
theorem boostAt_lookup_ne : ∀ (m : DictSR) (k' k : Str) (d : ℚ), k' ≠ k →
    lookupA (boostAt m k' d) k = lookupA m k := by
  intro m
  induction m with
  | nil => intro k' k d _; rfl
  | cons p t ih =>
    intro k' k d hne
    obtain ⟨kk, v⟩ := p
    rw [boostAt_cons]
    by_cases he : kk = k'
    · rw [if_pos he, lookupA_cons, lookupA_cons, if_neg (he ▸ hne), if_neg (he ▸ hne)]
    · rw [if_neg he, lookupA_cons, lookupA_cons]
      by_cases he2 : kk = k
      · rw [if_pos he2, if_pos he2]
      · rw [if_neg he2, if_neg he2]
        exact ih k' k d hne

/-- Boosting a present key adds `d` to its stored score. -/
theorem boostAt_lookup_eq : ∀ (m : DictSR) (k : Str) (d : ℚ) (v : SR),
    lookupA m k = some v →
    lookupA (boostAt m k d) k = some { v with score := v.score + d } := by
  intro m
  induction m with
  | nil => intro k d v h; cases h
  | cons p t ih =>
    intro k d v h
    obtain ⟨kk, vv⟩ := p
    rw [lookupA_cons] at h
    rw [boostAt_cons]
    by_cases he : kk = k
    · rw [if_pos he] at h
      cases h
      rw [if_pos he, lookupA_cons, if_pos he]
    · rw [if_neg he] at h
      rw [if_neg he, lookupA_cons, if_neg he]
      exact ih k d v h

/-- Appending a fresh pair: lookups of other keys are unchanged. -/
theorem lookupA_append_ne : ∀ (m : DictSR) (k' k : Str) (v : SR), k' ≠ k →
    lookupA (m ++ [(k', v)]) k = lookupA m k := by
  intro m
  induction m with
  | nil =>
    intro k' k v hne
    show lookupA [(k', v)] k = none
    rw [lookupA_cons, if_neg hne]
    rfl
  | cons p t ih =>
    intro k' k v hne
    obtain ⟨kk, vv⟩ := p
    show lookupA ((kk, vv) :: (t ++ [(k', v)])) k = lookupA ((kk, vv) :: t) k
    rw [lookupA_cons, lookupA_cons]
    by_cases he : kk = k
    · rw [if_pos he, if_pos he]
    · rw [if_neg he, if_neg he]
      exact ih k' k v hne

/-- Appending a pair for a previously absent key makes it findable. -/
theorem lookupA_append_new : ∀ (m : DictSR) (k : Str) (v : SR),
    lookupA m k = none → lookupA (m ++ [(k, v)]) k = some v := by
  intro m
  induction m with
  | nil =>
    intro k v _
    show lookupA [(k, v)] k = some v
    rw [lookupA_cons, if_pos rfl]
  | cons p t ih =>
    intro k v h
    obtain ⟨kk, vv⟩ := p
    rw [lookupA_cons] at h
    show lookupA ((kk, vv) :: (t ++ [(k, v)])) k = some v
    rw [lookupA_cons]
    by_cases he : kk = k
    · rw [if_pos he] at h
      cases h
    · rw [if_neg he] at h
      rw [if_neg he]
      exact ih k v h

/-- One vector step for a result with a different base key preserves the
lookup at `k`. -/
theorem vecStep_lookup_ne (m : DictSR) (c : SR) (k : Str)
    (hne : baseKeyOf c ≠ k) :
    lookupA (vecStep m c) k = lookupA m k := by
  unfold vecStep
  by_cases hs : (lookupA m (baseKeyOf c)).isSome
  · rw [if_pos hs]
    exact boostAt_lookup_ne m (baseKeyOf c) k _ hne
  · rw [if_neg hs]
    by_cases hq : (1:ℚ)/4 < c.score
    · rw [if_pos hq]
      exact lookupA_append_ne m (baseKeyOf c) k _ hne
    · rw [if_neg hq]

/-- Folding vector results whose keys all differ from `k` preserves the
lookup at `k`. -/
theorem vecFold_lookup_ne (l : List SR) (m : DictSR) (k : Str)
    (h : ∀ c ∈ l, baseKeyOf c ≠ k) :
    lookupA (l.foldl vecStep m) k = lookupA m k := by
  induction l generalizing m with
  | nil => rfl
  | cons c t ih =>
    simp only [List.foldl_cons]
    rw [ih (vecStep m c) (fun x hx => h x (List.mem_cons_of_mem _ hx))]
    exact vecStep_lookup_ne m c k (h c (List.mem_cons_self _ _))

/-- Keys on both sides of a key-distinct split differ from the middle key. -/
theorem nodup_split_keys (l1 l2 : List SR) (b : SR)
    (h : ((l1 ++ b :: l2).map baseKeyOf).Nodup) :
    (∀ x ∈ l1, baseKeyOf x ≠ baseKeyOf b) ∧ (∀ x ∈ l2, baseKeyOf x ≠ baseKeyOf b) := by
  rw [List.map_append, List.map_cons] at h
  rcases List.nodup_append.mp h with ⟨_, hn2, hdisj⟩
  have hb2 : baseKeyOf b ∉ l2.map baseKeyOf := (List.nodup_cons.mp hn2).1
  constructor
  · intro x hx heq
    exact hdisj (List.mem_map_of_mem baseKeyOf hx) (heq ▸ List.mem_cons_self _ _)
  · intro x hx heq
    exact hb2 (heq ▸ List.mem_map_of_mem baseKeyOf hx)

/-- Unfolding equation for one vector step. -/
theorem vecStep_eq (m : DictSR) (r : SR) :
    vecStep m r =
      if (lookupA m (baseKeyOf r)).isSome then boostAt m (baseKeyOf r) (r.score * 20)
      else if (1:ℚ)/4 < r.score then
        m ++ [(baseKeyOf r, { r with score := r.score * 10 })]
      else m := rfl

/-- A value stored in the final dict is a member of the merged value list,
hence of the sorted output. -/
theorem mem_hybrid_of_lookup (kw vec : List SR) (k : Str) (v : SR)
    (h : lookupA (vec.foldl vecStep
      (kw.foldl (fun m r => insertReplace m (baseKeyOf r) r) [])) k = some v) :
    v ∈ hybrid_merge kw vec := by
  have hmem : (k, v) ∈ vec.foldl vecStep
      (kw.foldl (fun m r => insertReplace m (baseKeyOf r) r) []) := lookupA_mem _ _ _ h
  have hv : v ∈ merged_list kw vec := by
    unfold merged_list
    exact List.mem_map_of_mem Prod.snd hmem
  exact ((List.perm_insertionSort rScore (merged_list kw vec)).mem_iff).mpr hv

/-- Stability of the stable insertion step: filtering one score class
commutes with `orderedInsert` (skipped elements all have a strictly
higher score). -/
theorem filter_score_orderedInsert (x : SR) (m : List SR) (cq : ℚ) :
    (List.orderedInsert rScore x m).filter (fun r => decide (r.score = cq)) =
      if x.score = cq then x :: m.filter (fun r => decide (r.score = cq))
      else m.filter (fun r => decide (r.score = cq)) := by
  induction m with
  | nil =>
    simp only [List.orderedInsert, List.filter]
    by_cases hx : x.score = cq
    · simp [hx]
    · simp [hx]
  | cons b l ih =>
    rw [List.orderedInsert]
    by_cases hr : rScore x b
    · rw [if_pos hr]
      by_cases hx : x.score = cq
      · simp [List.filter_cons, hx]
      · simp [List.filter_cons, hx]
    · rw [if_neg hr]
      have hxb : x.score < b.score := lt_of_not_le hr
      simp only [List.filter_cons, ih]
      by_cases hb : b.score = cq
      · have hx : ¬ (x.score = cq) := by
          intro hx
          rw [hx, hb] at hxb
          exact lt_irrefl cq hxb
        simp [hb, hx]
      · by_cases hx : x.score = cq
        · simp [hb, hx]
        · simp [hb, hx]

/-- Stability of the whole stable sort: each score class keeps its input
order. -/
theorem filter_score_insertionSort (l : List SR) (cq : ℚ) :
    (List.insertionSort rScore l).filter (fun r => decide (r.score = cq)) =
      l.filter (fun r => decide (r.score = cq)) := by
  induction l with
  | nil => rfl
  | cons a t ih =>
    rw [List.insertionSort, filter_score_orderedInsert]
    by_cases ha : a.score = cq
    · rw [if_pos ha, ih]
      simp [List.filter, ha]
    · rw [if_neg ha, ih]
      simp [List.filter, ha]

/-- C6: the hybrid merger on key-distinct lexical and vector result sets.
(1) A key present in both sets keeps the lexical record with its score
boosted by `vectorSimilarity × 20`.  (2) A key present only in the vector
set and above the 0.25 floor is admitted with score
`vectorSimilarity × 10`.  (3) The output is sorted by descending score.
(4) Ties are stable: each score class appears in exactly its dict
insertion order (`merged_list`), which together with the merger being a
pure function makes repeated merges of identical inputs identical. -/
theorem claim_C6_merge (kw vec : List SR)
    (hkw : (kw.map baseKeyOf).Nodup) (hvec : (vec.map baseKeyOf).Nodup) :
    (∀ a ∈ kw, ∀ b ∈ vec, baseKeyOf a = baseKeyOf b →
      ({ a with score := a.score + b.score * 20 } : SR) ∈ hybrid_merge kw vec) ∧
    (∀ b ∈ vec, (∀ a ∈ kw, baseKeyOf a ≠ baseKeyOf b) → (1:ℚ)/4 < b.score →
      ({ b with score := b.score * 10 } : SR) ∈ hybrid_merge kw vec) ∧
    (hybrid_merge kw vec).Pairwise (fun x y => y.score ≤ x.score) ∧
    (∀ cq : ℚ, (hybrid_merge kw vec).filter (fun r => decide (r.score = cq)) =
      (merged_list kw vec).filter (fun r => decide (r.score = cq))) := by
  have hm1 : kw.foldl (fun m r => insertReplace m (baseKeyOf r) r) [] =
      kw.map (fun r => (baseKeyOf r, r)) := by
    rw [kwFold_eq kw [] (by simp) hkw]
    simp
  refine ⟨?_, ?_, ?_, ?_⟩
  · intro a ha b hb hab
    rcases List.append_of_mem hb with ⟨l1, l2, rfl⟩
    have hsplit := nodup_split_keys l1 l2 b hvec
    apply mem_hybrid_of_lookup kw (l1 ++ b :: l2) (baseKeyOf a)
    rw [List.foldl_append, List.foldl_cons]
    have h1 : lookupA (l1.foldl vecStep
        (kw.foldl (fun m r => insertReplace m (baseKeyOf r) r) [])) (baseKeyOf a) =
        some a := by
      rw [vecFold_lookup_ne l1 _ (baseKeyOf a)
        (fun x hx he => hsplit.1 x hx (he.trans hab)), hm1]
      exact lookupA_map_pair kw a hkw ha
    have h2 : lookupA (vecStep (l1.foldl vecStep
        (kw.foldl (fun m r => insertReplace m (baseKeyOf r) r) [])) b) (baseKeyOf a) =
        some { a with score := a.score + b.score * 20 } := by
      rw [vecStep_eq, ← hab]
      rw [if_pos (by rw [h1]; rfl)]
      exact boostAt_lookup_eq _ _ _ _ h1
    rw [vecFold_lookup_ne l2 _ (baseKeyOf a) (fun x hx he => hsplit.2 x hx (he.trans hab))]
    exact h2
  · intro b hb hnotin hq
    rcases List.append_of_mem hb with ⟨l1, l2, rfl⟩
    have hsplit := nodup_split_keys l1 l2 b hvec
    apply mem_hybrid_of_lookup kw (l1 ++ b :: l2) (baseKeyOf b)
    rw [List.foldl_append, List.foldl_cons]
    have h1 : lookupA (l1.foldl vecStep
        (kw.foldl (fun m r => insertReplace m (baseKeyOf r) r) [])) (baseKeyOf b) =
        none := by
      rw [vecFold_lookup_ne l1 _ (baseKeyOf b) hsplit.1, hm1]
      apply lookupA_map_pair_none
      intro hmem
      rcases List.mem_map.mp hmem with ⟨a, ha, hkey⟩
      exact hnotin a ha hkey
    have h2 : lookupA (vecStep (l1.foldl vecStep
        (kw.foldl (fun m r => insertReplace m (baseKeyOf r) r) [])) b) (baseKeyOf b) =
        some { b with score := b.score * 10 } := by
      rw [vecStep_eq]
      rw [if_neg (by rw [h1]; simp), if_pos hq]
      exact lookupA_append_new _ _ _ h1
    rw [vecFold_lookup_ne l2 _ (baseKeyOf b) hsplit.2]
    exact h2
  · exact List.sorted_insertionSort rScore (merged_list kw vec)
  · intro cq
    exact filter_score_insertionSort (merged_list kw vec) cq

/-- C6, witness: a two-element lexical set merged with a vector set that
boosts one key and admits one new key. -/
theorem claim_C6_witness :
    ({ (⟨unitA, 10, none⟩ : SR) with score := (10:ℚ) + (1/2) * 20 } : SR) ∈
      hybrid_merge [⟨unitA, 10, none⟩] [⟨unitA, 1/2, none⟩, ⟨unitB, 1/2, none⟩] ∧
    ({ (⟨unitB, (1:ℚ)/2, none⟩ : SR) with score := (1:ℚ)/2 * 10 } : SR) ∈
      hybrid_merge [⟨unitA, 10, none⟩] [⟨unitA, 1/2, none⟩, ⟨unitB, 1/2, none⟩] := by
  constructor
  · exact (claim_C6_merge [⟨unitA, 10, none⟩] [⟨unitA, 1/2, none⟩, ⟨unitB, 1/2, none⟩]
      (by decide) (by decide)).1 ⟨unitA, 10, none⟩ (by simp) ⟨unitA, 1/2, none⟩
      (by simp) rfl
  · exact (claim_C6_merge [⟨unitA, 10, none⟩] [⟨unitA, 1/2, none⟩, ⟨unitB, 1/2, none⟩]
      (by decide) (by decide)).2.1 ⟨unitB, 1/2, none⟩ (by simp)
      (by intro a ha; simp at ha; subst ha; decide) (by decide)

/-! ## Claim C7: the episode grouper / reorderer -/

/-- `getD` of an append, left of the seam. -/
theorem getD_append_left_SR (l1 l2 : List SR) (n : ℕ) (d : SR) (h : n < l1.length) :
    (l1 ++ l2).getD n d = l1.getD n d := by
  simp [List.getD_eq_getElem?_getD, List.getElem?_append_left h]

/-- `getD` of an append, right of the seam. -/
theorem getD_append_right_SR (l1 l2 : List SR) (n : ℕ) (d : SR) (h : l1.length ≤ n) :
    (l1 ++ l2).getD n d = l2.getD (n - l1.length) d := by
  simp [List.getD_eq_getElem?_getD, List.getElem?_append_right h]

/-- An in-range `getD` is a member. -/
theorem getD_mem_SR (l : List SR) (n : ℕ) (d : SR) (h : n < l.length) :
    l.getD n d ∈ l := by
  rw [List.getD_eq_getElem?_getD, List.getElem?_eq_getElem h]
  exact List.getElem_mem h

/-- Members of the flattened tail belong to some group. -/
theorem mem_flatten_items (gs : List EGroup) (x : SR)
    (hx : x ∈ (gs.map EGroup.items).flatten) :
    ∃ g ∈ gs, x ∈ g.items := by
  rcases List.mem_flatten.mp hx with ⟨b, hb, hxb⟩
  rcases List.mem_map.mp hb with ⟨g, hg, rfl⟩
  exact ⟨g, hg, hxb⟩

/-- Betweenness on the flattening of key-homogeneous, key-distinct groups:
two positions with equal base keys enclose only positions of that key. -/
theorem clustered_flatten (gs : List EGroup)
    (hom : ∀ g ∈ gs, ∀ x ∈ g.items, baseKeyOf x = g.key)
    (hnd : (gs.map EGroup.key).Nodup) :
    ∀ i j k (d : SR), i < j → j < k →
      k < ((gs.map EGroup.items).flatten).length →
      baseKeyOf (((gs.map EGroup.items).flatten).getD i d) =
        baseKeyOf (((gs.map EGroup.items).flatten).getD k d) →
      baseKeyOf (((gs.map EGroup.items).flatten).getD j d) =
        baseKeyOf (((gs.map EGroup.items).flatten).getD i d) := by
  induction gs with
  | nil =>
    intro i j k d _ _ hk _
    simp at hk
  | cons g t ih =>
    intro i j k d hij hjk hk hik
    have hkey : (g.key ∉ t.map EGroup.key) ∧ (t.map EGroup.key).Nodup := by
      rw [List.map_cons, List.nodup_cons] at hnd
      exact hnd
    simp only [List.map_cons, List.flatten_cons] at hk hik ⊢
    set n := g.items.length with hn
    by_cases hkn : k < n
    · have hi := getD_append_left_SR g.items ((t.map EGroup.items).flatten) i d (by omega)
      have hj := getD_append_left_SR g.items ((t.map EGroup.items).flatten) j d (by omega)
      have hkk := getD_append_left_SR g.items ((t.map EGroup.items).flatten) k d hkn
      rw [hi, hj]
      have hgi : g.items.getD i d ∈ g.items := getD_mem_SR _ _ _ (by omega)
      have hgj : g.items.getD j d ∈ g.items := getD_mem_SR _ _ _ (by omega)
      rw [hom g (List.mem_cons_self _ _) _ hgj, hom g (List.mem_cons_self _ _) _ hgi]
    · by_cases hin : i < n
      · exfalso
        have hi := getD_append_left_SR g.items ((t.map EGroup.items).flatten) i d hin
        have hkk := getD_append_right_SR g.items ((t.map EGroup.items).flatten) k d (by omega)
        rw [hi, hkk] at hik
        have hgi : g.items.getD i d ∈ g.items := getD_mem_SR _ _ _ hin
        have hky : k - n < ((t.map EGroup.items).flatten).length := by
          rw [List.length_append] at hk
          omega
        have hmem : ((t.map EGroup.items).flatten).getD (k - n) d ∈
            (t.map EGroup.items).flatten := getD_mem_SR _ _ _ hky
        rcases mem_flatten_items t _ hmem with ⟨g', hg', hxg'⟩
        have h1 : baseKeyOf (g.items.getD i d) = g.key :=
          hom g (List.mem_cons_self _ _) _ hgi
        have h2 : baseKeyOf (((t.map EGroup.items).flatten).getD (k - n) d) = g'.key :=
          hom g' (List.mem_cons_of_mem _ hg') _ hxg'
        rw [h1, h2] at hik
        exact hkey.1 (hik ▸ List.mem_map_of_mem EGroup.key hg')
      · have hi := getD_append_right_SR g.items ((t.map EGroup.items).flatten) i d (by omega)
        have hj := getD_append_right_SR g.items ((t.map EGroup.items).flatten) j d (by omega)
        have hkk := getD_append_right_SR g.items ((t.map EGroup.items).flatten) k d (by omega)
        rw [hi, hkk] at hik
        rw [hj, hi]
        have hky : k - n < ((t.map EGroup.items).flatten).length := by
          rw [List.length_append] at hk
          omega
        exact ih (fun g' hg' => hom g' (List.mem_cons_of_mem _ hg')) hkey.2
          (i - n) (j - n) (k - n) d (by omega) (by omega) hky hik

/-- `addR` unfolding on cons. -/
theorem addR_cons (g : EGroup) (t : List EGroup) (k : Str) (r : SR) (i : ℕ) :
    addR (g :: t) k r i =
      if g.key = k then
        { g with
          items := g.items ++ [r],
          best_score := if g.best_score < r.score then r.score else g.best_score } :: t
      else g :: addR t k r i := rfl

/-- `addR` either leaves the key list alone or appends the new key. -/
theorem addR_keys : ∀ (gs : List EGroup) (k : Str) (r : SR) (i : ℕ),
    (addR gs k r i).map EGroup.key =
      if k ∈ gs.map EGroup.key then gs.map EGroup.key
      else gs.map EGroup.key ++ [k] := by
  intro gs
  induction gs with
  | nil =>
    intro k r i
    simp [addR]
  | cons g t ih =>
    intro k r i
    rw [addR_cons]
    by_cases he : g.key = k
    · rw [if_pos he]
      simp [he]
    · have he' : ¬ (k = g.key) := fun h => he h.symm
      rw [if_neg he]
      simp only [List.map_cons, List.mem_cons]
      rw [ih]
      by_cases hm : k ∈ t.map EGroup.key
      · simp [hm, he']
      · simp [hm, he']

/-- `addR` preserves key-homogeneity of every group. -/
theorem addR_hom (gs : List EGroup) (k : Str) (r : SR) (i : ℕ)
    (hgs : ∀ g ∈ gs, ∀ x ∈ g.items, baseKeyOf x = g.key) (hr : baseKeyOf r = k) :
    ∀ g ∈ addR gs k r i, ∀ x ∈ g.items, baseKeyOf x = g.key := by
  induction gs with
  | nil =>
    intro g hg x hx
    simp only [addR, List.mem_singleton] at hg
    subst hg
    simp only [List.mem_singleton] at hx
    subst hx
    exact hr
  | cons g0 t ih =>
    intro g hg x hx
    rw [addR_cons] at hg
    by_cases he : g0.key = k
    · rw [if_pos he] at hg
      rcases List.mem_cons.mp hg with rfl | hgt
      · simp only [List.mem_append, List.mem_singleton] at hx
        rcases hx with hx | rfl
        · exact hgs g0 (List.mem_cons_self _ _) x hx
        · exact he ▸ hr
      · exact hgs g (List.mem_cons_of_mem _ hgt) x hx
    · rw [if_neg he] at hg
      rcases List.mem_cons.mp hg with rfl | hgt
      · exact hgs g (List.mem_cons_self _ _) x hx
      · exact ih (fun g' hg' => hgs g' (List.mem_cons_of_mem _ hg')) g hgt x hx

/-- `addR` preserves "best_score bounds the items and is attained". -/
theorem addR_best (gs : List EGroup) (k : Str) (r : SR) (i : ℕ)
    (hgs : ∀ g ∈ gs, (∀ x ∈ g.items, x.score ≤ g.best_score) ∧
      ∃ x ∈ g.items, g.best_score = x.score) :
    ∀ g ∈ addR gs k r i, (∀ x ∈ g.items, x.score ≤ g.best_score) ∧
      ∃ x ∈ g.items, g.best_score = x.score := by
  induction gs with
  | nil =>
    intro g hg
    simp only [addR, List.mem_singleton] at hg
    subst hg
    exact ⟨fun x hx => by simp only [List.mem_singleton] at hx; subst hx; exact le_refl _,
      ⟨r, by simp⟩⟩
  | cons g0 t ih =>
    intro g hg
    rw [addR_cons] at hg
    by_cases he : g0.key = k
    · rw [if_pos he] at hg
      rcases List.mem_cons.mp hg with rfl | hgt
      · have h0 := hgs g0 (List.mem_cons_self _ _)
        constructor
        · intro x hx
          simp only [List.mem_append, List.mem_singleton] at hx
          by_cases hbr : g0.best_score < r.score
          · simp only [if_pos hbr]
            rcases hx with hx | rfl
            · exact le_of_lt (lt_of_le_of_lt (h0.1 x hx) hbr)
            · exact le_refl _
          · simp only [if_neg hbr]
            rcases hx with hx | rfl
            · exact h0.1 x hx
            · exact le_of_not_lt hbr
        · by_cases hbr : g0.best_score < r.score
          · exact ⟨r, by simp, by simp [if_pos hbr]⟩
          · rcases h0.2 with ⟨x, hx, hbx⟩
            refine ⟨x, List.mem_append_left _ hx, ?_⟩
            show (if g0.best_score < r.score then r.score else g0.best_score) = x.score
            rw [if_neg hbr]
            exact hbx
      · exact hgs g (List.mem_cons_of_mem _ hgt)
    · rw [if_neg he] at hg
      rcases List.mem_cons.mp hg with rfl | hgt
      · exact hgs g (List.mem_cons_self _ _)
      · exact ih (fun g' hg' => hgs g' (List.mem_cons_of_mem _ hg')) g hgt

/-- `addR` appends the new result to the multiset of grouped items. -/
theorem addR_flatten (gs : List EGroup) (k : Str) (r : SR) (i : ℕ) :
    ((addR gs k r i).map EGroup.items).flatten.Perm
      (((gs.map EGroup.items).flatten) ++ [r]) := by
  induction gs with
  | nil => simp [addR]
  | cons g0 t ih =>
    rw [addR_cons]
    by_cases he : g0.key = k
    · rw [if_pos he]
      simp only [List.map_cons, List.flatten_cons]
      rw [List.append_assoc, List.append_assoc]
      exact List.Perm.append_left g0.items List.perm_append_comm
    · rw [if_neg he]
      simp only [List.map_cons, List.flatten_cons]
      rw [List.append_assoc]
      exact List.Perm.append_left g0.items ih

/-- The grouping loop preserves key-homogeneity. -/
theorem mkGroupsGo_hom (todo : List SR) (gs : List EGroup) (i : ℕ)
    (h : ∀ g ∈ gs, ∀ x ∈ g.items, baseKeyOf x = g.key) :
    ∀ g ∈ mkGroupsGo gs i todo, ∀ x ∈ g.items, baseKeyOf x = g.key := by
  induction todo generalizing gs i with
  | nil => exact h
  | cons r t ih =>
    exact ih (addR gs (baseKeyOf r) r i) (i + 1) (addR_hom gs (baseKeyOf r) r i h rfl)

/-- The grouping loop preserves key distinctness. -/
theorem mkGroupsGo_keys_nodup (todo : List SR) (gs : List EGroup) (i : ℕ)
    (h : (gs.map EGroup.key).Nodup) :
    ((mkGroupsGo gs i todo).map EGroup.key).Nodup := by
  induction todo generalizing gs i with
  | nil => exact h
  | cons r t ih =>
    apply ih
    rw [addR_keys]
    by_cases hm : baseKeyOf r ∈ gs.map EGroup.key
    · rw [if_pos hm]
      exact h
    · rw [if_neg hm, ← List.concat_eq_append]
      exact List.Nodup.concat hm h

/-- The grouping loop preserves best-score soundness. -/
theorem mkGroupsGo_best (todo : List SR) (gs : List EGroup) (i : ℕ)
    (h : ∀ g ∈ gs, (∀ x ∈ g.items, x.score ≤ g.best_score) ∧
      ∃ x ∈ g.items, g.best_score = x.score) :
    ∀ g ∈ mkGroupsGo gs i todo, (∀ x ∈ g.items, x.score ≤ g.best_score) ∧
      ∃ x ∈ g.items, g.best_score = x.score := by
  induction todo generalizing gs i with
  | nil => exact h
  | cons r t ih =>
    exact ih (addR gs (baseKeyOf r) r i) (i + 1) (addR_best gs (baseKeyOf r) r i h)

/-- The grouping loop collects exactly the processed results. -/
theorem mkGroupsGo_flatten (todo : List SR) (gs : List EGroup) (i : ℕ) :
    ((mkGroupsGo gs i todo).map EGroup.items).flatten.Perm
      (((gs.map EGroup.items).flatten) ++ todo) := by
  induction todo generalizing gs i with
  | nil =>
    rw [List.append_nil]
    exact List.Perm.refl _
  | cons r t ih =>
    show ((mkGroupsGo (addR gs (baseKeyOf r) r i) (i + 1) t).map EGroup.items).flatten.Perm _
    refine (ih (addR gs (baseKeyOf r) r i) (i + 1)).trans ?_
    have h1 := addR_flatten gs (baseKeyOf r) r i
    refine (h1.append_right t).trans ?_
    rw [List.append_assoc]
    exact List.Perm.refl _

/-- Sorting each group's items leaves the flattened multiset unchanged. -/
theorem flatten_sortGroupItems (gs : List EGroup) :
    (((gs.map sortGroupItems).map EGroup.items).flatten).Perm
      ((gs.map EGroup.items).flatten) := by
  induction gs with
  | nil => rfl
  | cons g t ih =>
    simp only [List.map_cons, List.flatten_cons]
    exact (List.perm_insertionSort rItem g.items).append ih

/-- Membership characterisation of the final sorted group list. -/
theorem mem_sortedGroups (rs : List SR) (g : EGroup) (hg : g ∈ sortedGroups rs) :
    ∃ g0 ∈ mkGroups rs, g = sortGroupItems g0 := by
  have h1 : g ∈ (mkGroups rs).map sortGroupItems :=
    ((List.perm_insertionSort rGroup _).mem_iff).mp hg
  rcases List.mem_map.mp h1 with ⟨g0, hg0, rfl⟩
  exact ⟨g0, hg0, rfl⟩

/-- Each member of `addR gs k r i` is either an existing group of `gs`
(same key and first index) or the freshly created group for a new key. -/
theorem addR_mem : ∀ (gs : List EGroup) (k : Str) (r : SR) (i : ℕ),
    ∀ g ∈ addR gs k r i,
      (∃ g0 ∈ gs, g.key = g0.key ∧ g.first_idx = g0.first_idx) ∨
      (g = ⟨k, [r], r.score, i⟩ ∧ k ∉ gs.map EGroup.key) := by
  intro gs
  induction gs with
  | nil =>
    intro k r i g hg
    simp only [addR, List.mem_singleton] at hg
    exact Or.inr ⟨hg, by simp⟩
  | cons g0 t ih =>
    intro k r i g hg
    rw [addR_cons] at hg
    by_cases he : g0.key = k
    · rw [if_pos he] at hg
      rcases List.mem_cons.mp hg with rfl | hgt
      · exact Or.inl ⟨g0, List.mem_cons_self _ _, rfl, rfl⟩
      · exact Or.inl ⟨g, List.mem_cons_of_mem _ hgt, rfl, rfl⟩
    · rw [if_neg he] at hg
      rcases List.mem_cons.mp hg with rfl | hgt
      · exact Or.inl ⟨g, List.mem_cons_self _ _, rfl, rfl⟩
      · rcases ih k r i g hgt with ⟨g1, hg1, hk1, hi1⟩ | ⟨rfl, hnk⟩
        · exact Or.inl ⟨g1, List.mem_cons_of_mem _ hg1, hk1, hi1⟩
        · refine Or.inr ⟨rfl, ?_⟩
          simp only [List.map_cons, List.mem_cons]
          push_neg
          exact ⟨fun h => he h.symm, hnk⟩

/-- The first-encountered-index invariant of the grouping loop: each
group's `first_idx` points at the first position of its key. -/
theorem mkGroupsGo_firstIdx (todo : List SR) (gs : List EGroup) (pre : List SR) (d : SR)
    (hlen : ∀ g ∈ gs, g.first_idx < pre.length ∧
      baseKeyOf (pre.getD g.first_idx d) = g.key ∧
      ∀ m < g.first_idx, baseKeyOf (pre.getD m d) ≠ g.key)
    (hcomplete : ∀ m < pre.length, baseKeyOf (pre.getD m d) ∈ gs.map EGroup.key) :
    ∀ g ∈ mkGroupsGo gs pre.length todo,
      g.first_idx < (pre ++ todo).length ∧
      baseKeyOf ((pre ++ todo).getD g.first_idx d) = g.key ∧
      ∀ m < g.first_idx, baseKeyOf ((pre ++ todo).getD m d) ≠ g.key := by
  induction todo generalizing gs pre with
  | nil =>
    intro g hg
    rw [List.append_nil]
    exact hlen g hg
  | cons r t ih =>
    intro g hg
    have harg1 : ∀ g1 ∈ addR gs (baseKeyOf r) r pre.length,
        g1.first_idx < (pre ++ [r]).length ∧
        baseKeyOf ((pre ++ [r]).getD g1.first_idx d) = g1.key ∧
        ∀ m < g1.first_idx, baseKeyOf ((pre ++ [r]).getD m d) ≠ g1.key := by
      intro g1 hg1
      rcases addR_mem gs (baseKeyOf r) r pre.length g1 hg1 with
        ⟨g0, hg0, hk0, hi0⟩ | ⟨rfl, hnk⟩
      · rcases hlen g0 hg0 with ⟨hl, hkd, hfirst⟩
        refine ⟨by simp only [List.length_append, List.length_cons]; omega, ?_, ?_⟩
        · rw [hi0, getD_append_left_SR pre [r] g0.first_idx d hl, hkd, hk0]
        · intro m hm
          rw [hi0] at hm
          rw [getD_append_left_SR pre [r] m d (by omega), hk0]
          exact hfirst m hm
      · refine ⟨by simp, ?_, ?_⟩
        · show baseKeyOf ((pre ++ [r]).getD pre.length d) = baseKeyOf r
          rw [getD_append_right_SR pre [r] pre.length d (le_refl _)]
          simp
        · intro m hm
          show baseKeyOf ((pre ++ [r]).getD m d) ≠ baseKeyOf r
          rw [getD_append_left_SR pre [r] m d hm]
          intro hcontra
          exact hnk (hcontra ▸ hcomplete m hm)
    have harg2 : ∀ m < (pre ++ [r]).length,
        baseKeyOf ((pre ++ [r]).getD m d) ∈
          (addR gs (baseKeyOf r) r pre.length).map EGroup.key := by
      intro m hm
      simp only [List.length_append, List.length_cons, List.length_nil] at hm
      by_cases hmp : m < pre.length
      · rw [getD_append_left_SR pre [r] m d hmp]
        have h1 := hcomplete m hmp
        rw [addR_keys]
        by_cases hkk : baseKeyOf r ∈ gs.map EGroup.key
        · rw [if_pos hkk]
          exact h1
        · rw [if_neg hkk]
          exact List.mem_append_left _ h1
      · have hmeq : m = pre.length := by omega
        subst hmeq
        rw [getD_append_right_SR pre [r] pre.length d (le_refl _)]
        simp only [Nat.sub_self, List.getD_cons_zero]
        rw [addR_keys]
        by_cases hkk : baseKeyOf r ∈ gs.map EGroup.key
        · rw [if_pos hkk]
          exact hkk
        · rw [if_neg hkk]
          exact List.mem_append_right _ (by simp)
    have h2 := ih (addR gs (baseKeyOf r) r pre.length) (pre ++ [r]) harg1 harg2
    rw [show (pre ++ [r]).length = pre.length + 1 from by simp] at h2
    have hres := h2 g hg
    rw [List.append_assoc] at hres
    exact hres

/-- C7: the episode reorderer.  (1) The output is a permutation of the
input (grouping loses nothing).  (2) Every group of `sortedGroups` is
internally ordered by `rItem` (part-1 before part-2 before unmarked, ties
by descending score), all its items share its base key, and its
`best_score` is the maximum of its items' scores.  (3) The groups are
ordered by `rGroup` (best score descending, ties by first-encountered
index).  (4) Betweenness: in the flattened output, two positions holding
the same base key enclose only positions of that key — a part-1 item is
never separated from its part-2 counterpart by an unrelated result.
(5) Each group's `first_idx` is the index of its first-encountered member
in the input. -/
theorem claim_C7_reorder (rs : List SR) :
    (reorder_episode_pairs rs).Perm rs ∧
    (∀ g ∈ sortedGroups rs, List.Pairwise rItem g.items ∧
      (∀ x ∈ g.items, baseKeyOf x = g.key) ∧
      (∀ x ∈ g.items, x.score ≤ g.best_score) ∧
      (∃ x ∈ g.items, g.best_score = x.score)) ∧
    List.Pairwise rGroup (sortedGroups rs) ∧
    (∀ i j k (d : SR), i < j → j < k → k < (reorder_episode_pairs rs).length →
      baseKeyOf ((reorder_episode_pairs rs).getD i d) =
        baseKeyOf ((reorder_episode_pairs rs).getD k d) →
      baseKeyOf ((reorder_episode_pairs rs).getD j d) =
        baseKeyOf ((reorder_episode_pairs rs).getD i d)) ∧
    (∀ g ∈ sortedGroups rs, ∀ d : SR, g.first_idx < rs.length ∧
      baseKeyOf (rs.getD g.first_idx d) = g.key ∧
      ∀ m < g.first_idx, baseKeyOf (rs.getD m d) ≠ g.key) := by
  have hhom0 : ∀ g ∈ mkGroups rs, ∀ x ∈ g.items, baseKeyOf x = g.key :=
    mkGroupsGo_hom rs [] 0 (by intro g hg; cases hg)
  have hbest0 : ∀ g ∈ mkGroups rs, (∀ x ∈ g.items, x.score ≤ g.best_score) ∧
      ∃ x ∈ g.items, g.best_score = x.score :=
    mkGroupsGo_best rs [] 0 (by intro g hg; cases hg)
  have hnd0 : ((mkGroups rs).map EGroup.key).Nodup :=
    mkGroupsGo_keys_nodup rs [] 0 List.nodup_nil
  have hhom : ∀ g ∈ sortedGroups rs, ∀ x ∈ g.items, baseKeyOf x = g.key := by
    intro g hg x hx
    rcases mem_sortedGroups rs g hg with ⟨g0, hg0, rfl⟩
    have hx0 : x ∈ g0.items :=
      ((List.perm_insertionSort rItem g0.items).mem_iff).mp hx
    exact hhom0 g0 hg0 x hx0
  have hkeysorted : ((sortedGroups rs).map EGroup.key).Nodup := by
    have hperm : (sortedGroups rs).Perm ((mkGroups rs).map sortGroupItems) :=
      List.perm_insertionSort rGroup _
    have hperm2 := hperm.map EGroup.key
    rw [List.map_map] at hperm2
    have : ((mkGroups rs).map (EGroup.key ∘ sortGroupItems)) = (mkGroups rs).map EGroup.key :=
      List.map_congr_left (fun g _ => rfl)
    rw [this] at hperm2
    exact hperm2.nodup_iff.mpr hnd0
  refine ⟨?_, ?_, ?_, ?_, ?_⟩
  · show (((sortedGroups rs).map EGroup.items).flatten).Perm rs
    have h1 : (sortedGroups rs).Perm ((mkGroups rs).map sortGroupItems) :=
      List.perm_insertionSort rGroup _
    refine ((h1.map EGroup.items).flatten).trans ?_
    refine (flatten_sortGroupItems (mkGroups rs)).trans ?_
    simpa using mkGroupsGo_flatten rs [] 0
  · intro g hg
    rcases mem_sortedGroups rs g hg with ⟨g0, hg0, rfl⟩
    refine ⟨List.sorted_insertionSort rItem g0.items, ?_, ?_, ?_⟩
    · intro x hx
      exact hhom _ hg x hx
    · intro x hx
      have hx0 : x ∈ g0.items :=
        ((List.perm_insertionSort rItem g0.items).mem_iff).mp hx
      exact (hbest0 g0 hg0).1 x hx0
    · rcases (hbest0 g0 hg0).2 with ⟨x, hx, hbx⟩
      exact ⟨x, ((List.perm_insertionSort rItem g0.items).mem_iff).mpr hx, hbx⟩
  · exact List.sorted_insertionSort rGroup _
  · exact clustered_flatten (sortedGroups rs) hhom hkeysorted
  · intro g hg d
    rcases mem_sortedGroups rs g hg with ⟨g0, hg0, rfl⟩
    have h0 := mkGroupsGo_firstIdx rs [] [] d
      (by intro g1 hg1; cases hg1) (by intro m hm; simp at hm) g0 hg0
    simpa using h0

/-- C7, witness: the reorderer on a concrete three-result list (an episode
pair straddling an unrelated higher-scored result) is a permutation of its
input. -/
theorem claim_C7_witness :
    (reorder_episode_pairs
      [⟨unitUp, 5, none⟩, ⟨unitA, 10, none⟩, ⟨unitDn, 7, none⟩]).Perm
      [⟨unitUp, 5, none⟩, ⟨unitA, 10, none⟩, ⟨unitDn, 7, none⟩] :=
  (claim_C7_reorder [⟨unitUp, 5, none⟩, ⟨unitA, 10, none⟩, ⟨unitDn, 7, none⟩]).1


/-! ## C8: disjointness of the three term sets -/

/-- Skipping `k` characters of the scan is the same as replacing in the
`k`-dropped string. -/
theorem replGo_drop (pat repl : Str) :
    ∀ (t : Str) (k : ℕ), replGo pat repl t k = replChars pat repl (t.drop k) := by
  intro t
  induction t with
  | nil => intro k; cases k <;> rfl
  | cons c t ih =>
    intro k
    cases k with
    | zero => rfl
    | succ k => show replGo pat repl t k = _; rw [ih k]; rfl

/-- One-step unfolding of `replChars` on a cons cell. -/
theorem replChars_cons (pat repl : Str) (c : Char) (t : Str) :
    replChars pat repl (c :: t) =
      if pat.isPrefixOf (c :: t) then repl ++ replChars pat repl (t.drop (pat.length - 1))
      else c :: replChars pat repl t := by
  show replGo pat repl (c :: t) 0 = _
  rw [replGo, replGo_drop]
  rfl

/-- Replacing by a single space creates no new space-free prefix: a
space-free prefix of the output was already a prefix of the input. -/
theorem pref_transfer (pat : Str) :
    ∀ (n : ℕ) (s p : Str), s.length ≤ n → ' ' ∉ p →
      p <+: replChars pat [' '] s → p <+: s := by
  intro n
  induction n with
  | zero =>
    intro s p hlen hsp h
    have hs : s = [] := List.eq_nil_of_length_eq_zero (Nat.le_zero.mp hlen)
    subst hs
    rw [List.prefix_nil.mp h]
  | succ n ih =>
    intro s p hlen hsp h
    match s with
    | [] =>
      rw [List.prefix_nil.mp h]
    | c :: t =>
      rw [replChars_cons] at h
      by_cases hp : pat.isPrefixOf (c :: t)
      · rw [if_pos hp] at h
        match p with
        | [] => exact List.nil_prefix
        | a :: p' =>
          have ha := (List.cons_prefix_cons.mp h).1
          exact absurd (ha ▸ List.mem_cons_self a p') hsp
      · rw [if_neg hp] at h
        match p with
        | [] => exact List.nil_prefix
        | a :: p' =>
          rcases List.cons_prefix_cons.mp h with ⟨ha, hpre⟩
          have hlen' : t.length ≤ n := by
            simp only [List.length_cons] at hlen; omega
          have hsp' : ' ' ∉ p' := fun hx => hsp (List.mem_cons_of_mem a hx)
          exact List.cons_prefix_cons.mpr ⟨ha, ih t p' hlen' hsp' hpre⟩

/-- Replacing by a single space creates no new space-free infix: a
space-free infix of the output was already an infix of the input. -/
theorem infx_transfer (pat : Str) :
    ∀ (n : ℕ) (s p : Str), s.length ≤ n → ' ' ∉ p →
      p <:+: replChars pat [' '] s → p <:+: s := by
  intro n
  induction n with
  | zero =>
    intro s p hlen hsp h
    have hs : s = [] := List.eq_nil_of_length_eq_zero (Nat.le_zero.mp hlen)
    subst hs
    rw [List.infix_nil.mp h]
  | succ n ih =>
    intro s p hlen hsp h
    match s with
    | [] =>
      rw [List.infix_nil.mp h]
    | c :: t =>
      have hlen' : t.length ≤ n := by
        simp only [List.length_cons] at hlen; omega
      rw [replChars_cons] at h
      by_cases hp : pat.isPrefixOf (c :: t)
      · rw [if_pos hp] at h
        rcases List.infix_cons_iff.mp h with hpre | hinf
        · match p with
          | [] => exact List.nil_infix
          | a :: p' =>
            have ha := (List.cons_prefix_cons.mp hpre).1
            exact absurd (ha ▸ List.mem_cons_self a p') hsp
        · have hd : (t.drop (pat.length - 1)).length ≤ n :=
            le_trans (by rw [List.length_drop]; omega) hlen'
          have h1 := ih (t.drop (pat.length - 1)) p hd hsp hinf
          exact List.infix_cons (h1.trans (List.drop_suffix (pat.length - 1) t).isInfix)
      · rw [if_neg hp] at h
        rcases List.infix_cons_iff.mp h with hpre | hinf
        · match p with
          | [] => exact List.nil_infix
          | a :: p' =>
            rcases List.cons_prefix_cons.mp hpre with ⟨ha, hpre'⟩
            have hsp' : ' ' ∉ p' := fun hx => hsp (List.mem_cons_of_mem a hx)
            have h1 := pref_transfer pat t.length t p' (le_refl _) hsp' hpre'
            exact (List.cons_prefix_cons.mpr ⟨ha, h1⟩).isInfix
        · exact List.infix_cons (ih t p hlen' hsp hinf)

/-- Self-elimination: after replacing every occurrence of a nonempty,
space-free pattern by a space, the pattern no longer occurs. -/
theorem self_elim (pat : Str) (hpe : pat ≠ []) (hsp : ' ' ∉ pat) :
    ∀ (n : ℕ) (s : Str), s.length ≤ n → ¬ pat <:+: replChars pat [' '] s := by
  intro n
  induction n with
  | zero =>
    intro s hlen h
    have hs : s = [] := List.eq_nil_of_length_eq_zero (Nat.le_zero.mp hlen)
    subst hs
    exact hpe (List.infix_nil.mp h)
  | succ n ih =>
    intro s hlen h
    match s with
    | [] => exact hpe (List.infix_nil.mp h)
    | c :: t =>
      have hlen' : t.length ≤ n := by
        simp only [List.length_cons] at hlen; omega
      rw [replChars_cons] at h
      by_cases hp : pat.isPrefixOf (c :: t)
      · rw [if_pos hp] at h
        rcases List.infix_cons_iff.mp h with hpre | hinf
        · match pat, hpe with
          | a :: p', _ =>
            have ha := (List.cons_prefix_cons.mp hpre).1
            exact absurd (ha ▸ List.mem_cons_self a p') hsp
        · have hd : (t.drop (pat.length - 1)).length ≤ n :=
            le_trans (by rw [List.length_drop]; omega) hlen'
          exact ih (t.drop (pat.length - 1)) hd hinf
      · rw [if_neg hp] at h
        rcases List.infix_cons_iff.mp h with hpre | hinf
        · match pat, hpe, hsp, hpre, hp with
          | a :: p', _, hsp, hpre, hp =>
            rcases List.cons_prefix_cons.mp hpre with ⟨ha, hpre'⟩
            have hsp' : ' ' ∉ p' := fun hx => hsp (List.mem_cons_of_mem a hx)
            have h1 := pref_transfer (a :: p') t.length t p' (le_refl _) hsp' hpre'
            exact hp (List.isPrefixOf_iff_prefix.mpr
              (List.cons_prefix_cons.mpr ⟨ha, h1⟩))
        · exact ih t hlen' hinf

/-- An infix of a list is an infix of any left-extension of it. -/
theorem infx_append_left (q x r : Str) (h : x <:+: r) : x <:+: q ++ r := by
  rcases h with ⟨u, v, huv⟩
  exact ⟨q ++ u, v, by rw [← huv]; simp⟩

/-- `s.replace(kw, " ")` for a nonempty keyword is `replChars`. -/
theorem pyReplace_ne (s p0 : Str) (h : p0 ≠ []) :
    pyReplace s p0 (str " ") = replChars p0 [' '] s := by
  rw [pyReplace, if_neg h]
  rfl

/-- A space-free string absent from `s` stays absent through any chain of
replace-by-space passes with nonempty patterns. -/
theorem notIn_foldl_repl (kw : Str) (hsp : ' ' ∉ kw) :
    ∀ (pats : List Str), (∀ p0 ∈ pats, p0 ≠ []) → ∀ s : Str,
      ¬ kw <:+: s →
      ¬ kw <:+: pats.foldl (fun t p0 => pyReplace t p0 (str " ")) s := by
  intro pats
  induction pats with
  | nil => intro _ s h; exact h
  | cons p0 pats ih =>
    intro hne s h
    rw [List.foldl_cons]
    refine ih (fun x hx => hne x (List.mem_cons_of_mem p0 hx)) _ ?_
    rw [pyReplace_ne s p0 (hne p0 (List.mem_cons_self p0 pats))]
    intro hc
    exact h (infx_transfer p0 s.length s kw (le_refl _) hsp hc)

/-- A space-free infix of the result of a chain of replace-by-space passes
with nonempty patterns was an infix of the original string. -/
theorem infx_foldl_back (kw : Str) (hsp : ' ' ∉ kw) :
    ∀ (pats : List Str), (∀ p0 ∈ pats, p0 ≠ []) → ∀ s : Str,
      kw <:+: pats.foldl (fun t p0 => pyReplace t p0 (str " ")) s → kw <:+: s := by
  intro pats
  induction pats with
  | nil => intro _ s h; exact h
  | cons p0 pats ih =>
    intro hne s h
    rw [List.foldl_cons] at h
    have h1 := ih (fun x hx => hne x (List.mem_cons_of_mem p0 hx)) _ h
    rw [pyReplace_ne s p0 (hne p0 (List.mem_cons_self p0 pats))] at h1
    exact infx_transfer p0 s.length s kw (le_refl _) hsp h1

/-- Every functional word of `normalize_query` is nonempty. -/
theorem functionalWords_ne : ∀ p0 ∈ functionalWords, p0 ≠ [] := by decide

/-- Every token produced by the delimiter-split worker is nonempty,
delimiter-free and an infix of the remaining input (with the pending
reversed accumulator prepended). -/
theorem splitGo_mem :
    ∀ (s cur : Str), (∀ c ∈ cur, ¬ (isDelim c = true)) →
      ∀ x ∈ splitGo s cur,
        x ≠ [] ∧ (∀ c ∈ x, ¬ (isDelim c = true)) ∧ x <:+: (cur.reverse ++ s) := by
  intro s
  induction s with
  | nil =>
    intro cur hcur x hx
    rw [splitGo] at hx
    by_cases hc : cur = []
    · rw [if_pos hc] at hx
      cases hx
    · rw [if_neg hc] at hx
      rcases List.mem_singleton.mp hx with rfl
      refine ⟨by simpa using hc, fun c hcm => hcur c (List.mem_reverse.mp hcm), ?_⟩
      rw [List.append_nil]
  | cons c t ih =>
    intro cur hcur x hx
    rw [splitGo] at hx
    by_cases hd : isDelim c = true
    · rw [if_pos hd] at hx
      by_cases hc : cur = []
      · rw [if_pos hc] at hx
        rcases ih [] (by intro a ha; cases ha) x hx with ⟨h1, h2, h3⟩
        subst hc
        exact ⟨h1, h2, by simpa using List.infix_cons h3⟩
      · rw [if_neg hc] at hx
        rcases List.mem_cons.mp hx with rfl | hx'
        · refine ⟨by simpa using hc,
            fun a ham => hcur a (List.mem_reverse.mp ham),
            (List.prefix_append cur.reverse (c :: t)).isInfix⟩
        · rcases ih [] (by intro a ha; cases ha) x hx' with ⟨h1, h2, h3⟩
          simp only [List.reverse_nil, List.nil_append] at h3
          exact ⟨h1, h2, infx_append_left cur.reverse _ _ (List.infix_cons h3)⟩
    · rw [if_neg hd] at hx
      have hcur' : ∀ a ∈ (c :: cur), ¬ (isDelim a = true) := by
        intro a ha
        rcases List.mem_cons.mp ha with rfl | ha'
        · exact hd
        · exact hcur a ha'
      rcases ih (c :: cur) hcur' x hx with ⟨h1, h2, h3⟩
      refine ⟨h1, h2, ?_⟩
      rw [List.reverse_cons, List.append_assoc] at h3
      simpa using h3

/-- Every field of the delimiter split is nonempty, delimiter-free and an
infix of the split string. -/
theorem splitDelims_mem (s : Str) :
    ∀ x ∈ splitDelims s,
      x ≠ [] ∧ (∀ c ∈ x, ¬ (isDelim c = true)) ∧ x <:+: s := by
  intro x hx
  rcases splitGo_mem s [] (by intro a ha; cases ha) x hx with ⟨h1, h2, h3⟩
  exact ⟨h1, h2, by simpa using h3⟩

/-- Soundness of the inner keyword loop of `coreFold`: everything in the
accumulator came from the accumulator or is a matching keyword of the list. -/
theorem coreInner_sound (q : Str) :
    ∀ (l a : List Str) (x : Str),
      x ∈ l.foldl
        (fun a kw => if isSub kw q then (if kw ∈ a then a else a ++ [kw]) else a) a →
      x ∈ a ∨ (x ∈ l ∧ isSub x q = true) := by
  intro l
  induction l with
  | nil => intro a x hx; exact Or.inl hx
  | cons k0 l ih =>
    intro a x hx
    rw [List.foldl_cons] at hx
    rcases ih _ x hx with hx' | ⟨hl, hs⟩
    · by_cases hs0 : isSub k0 q = true
      · rw [if_pos hs0] at hx'
        by_cases hm : k0 ∈ a
        · rw [if_pos hm] at hx'
          exact Or.inl hx'
        · rw [if_neg hm] at hx'
          rcases List.mem_append.mp hx' with hx'' | hx''
          · exact Or.inl hx''
          · rcases List.mem_singleton.mp hx'' with rfl
            exact Or.inr ⟨List.mem_cons_self _ _, hs0⟩
      · rw [if_neg hs0] at hx'
        exact Or.inl hx'
    · exact Or.inr ⟨List.mem_cons_of_mem k0 hl, hs⟩

/-- Completeness of the inner keyword loop of `coreFold`: a matching
keyword of the list, or anything already accumulated, ends up accumulated. -/
theorem coreInner_complete (q kw : Str) (hkw : isSub kw q = true) :
    ∀ (l a : List Str), kw ∈ a ∨ kw ∈ l →
      kw ∈ l.foldl
        (fun a k => if isSub k q then (if k ∈ a then a else a ++ [k]) else a) a := by
  intro l
  induction l with
  | nil => intro a h; exact h.resolve_right (by intro h'; cases h')
  | cons k0 l ih =>
    intro a h
    rw [List.foldl_cons]
    refine ih _ ?_
    rcases h with ha | hl
    · left
      by_cases hs0 : isSub k0 q = true
      · rw [if_pos hs0]
        by_cases hm : k0 ∈ a
        · rw [if_pos hm]; exact ha
        · rw [if_neg hm]; exact List.mem_append_left _ ha
      · rw [if_neg hs0]; exact ha
    · rcases List.mem_cons.mp hl with rfl | hl'
      · left
        rw [if_pos hkw]
        by_cases hm : kw ∈ a
        · rw [if_pos hm]; exact hm
        · rw [if_neg hm]; exact List.mem_append_right _ (List.mem_singleton.mpr rfl)
      · exact Or.inr hl'

/-- Soundness of `coreFold`: every collected core term is a taxonomy
keyword that occurs in the query. -/
theorem coreFold_sound_aux (q : Str) :
    ∀ (KD : Taxonomy) (acc : List Str) (x : Str),
      x ∈ KD.foldl
        (fun acc p => p.2.foldl
          (fun a kw => if isSub kw q then (if kw ∈ a then a else a ++ [kw]) else a) acc)
        acc →
      x ∈ acc ∨ ((∃ p ∈ KD, x ∈ p.2) ∧ isSub x q = true) := by
  intro KD
  induction KD with
  | nil => intro acc x hx; exact Or.inl hx
  | cons p0 KD ih =>
    intro acc x hx
    rw [List.foldl_cons] at hx
    rcases ih _ x hx with hx' | ⟨⟨p, hp, hxp⟩, hs⟩
    · rcases coreInner_sound q p0.2 acc x hx' with hx'' | ⟨hl, hs⟩
      · exact Or.inl hx''
      · exact Or.inr ⟨⟨p0, List.mem_cons_self _ _, hl⟩, hs⟩
    · exact Or.inr ⟨⟨p, List.mem_cons_of_mem p0 hp, hxp⟩, hs⟩

/-- Soundness of `coreFold` at the empty accumulator. -/
theorem coreFold_sound (KD : Taxonomy) (q : Str) (x : Str) (hx : x ∈ coreFold KD q) :
    (∃ p ∈ KD, x ∈ p.2) ∧ isSub x q = true := by
  rcases coreFold_sound_aux q KD [] x hx with h | h
  · cases h
  · exact h

/-- Completeness of `coreFold`: every taxonomy keyword occurring in the
query is collected. -/
theorem coreFold_complete_aux (q kw : Str) (hkw : isSub kw q = true) :
    ∀ (KD : Taxonomy) (acc : List Str), (∃ p ∈ KD, kw ∈ p.2) ∨ kw ∈ acc →
      kw ∈ KD.foldl
        (fun acc p => p.2.foldl
          (fun a k => if isSub k q then (if k ∈ a then a else a ++ [k]) else a) acc)
        acc := by
  intro KD
  induction KD with
  | nil =>
    intro acc h
    rcases h with ⟨p, hp, _⟩ | h
    · cases hp
    · exact h
  | cons p0 KD ih =>
    intro acc h
    rw [List.foldl_cons]
    refine ih _ ?_
    rcases h with ⟨p, hp, hkp⟩ | hacc
    · rcases List.mem_cons.mp hp with rfl | hp'
      · exact Or.inr (coreInner_complete q kw hkw p.2 acc (Or.inr hkp))
      · exact Or.inl ⟨p, hp', hkp⟩
    · exact Or.inr (coreInner_complete q kw hkw p0.2 acc (Or.inl hacc))

/-- Completeness of `coreFold` at the empty accumulator. -/
theorem coreFold_complete (KD : Taxonomy) (q kw : Str) (p : Str × List Str)
    (hp : p ∈ KD) (hkp : kw ∈ p.2) (hkw : isSub kw q = true) :
    kw ∈ coreFold KD q :=
  coreFold_complete_aux q kw hkw KD [] (Or.inl ⟨p, hp, hkp⟩)

/-- A dict-lookup hit comes from a taxonomy entry. -/
theorem lookupKD_mem (KD : Taxonomy) (cat : Str) (x : Str)
    (hx : x ∈ lookupKD KD cat) : ∃ p ∈ KD, x ∈ p.2 := by
  rw [lookupKD] at hx
  cases hf : KD.find? (fun p => p.1 == cat) with
  | none => rw [hf] at hx; cases hx
  | some pr =>
    rw [hf] at hx
    exact ⟨pr, List.mem_of_find?_eq_some hf, hx⟩

/-- Soundness of the inner sibling loop of `expandedFold`. -/
theorem expInner_sound (core : List Str) :
    ∀ (l a : List Str) (x : Str),
      x ∈ l.foldl (fun a kw => if kw ∈ core ∨ kw ∈ a then a else a ++ [kw]) a →
      x ∈ a ∨ (x ∉ core ∧ x ∈ l) := by
  intro l
  induction l with
  | nil => intro a x hx; exact Or.inl hx
  | cons k0 l ih =>
    intro a x hx
    rw [List.foldl_cons] at hx
    rcases ih _ x hx with hx' | ⟨hc, hl⟩
    · by_cases hif : k0 ∈ core ∨ k0 ∈ a
      · rw [if_pos hif] at hx'
        exact Or.inl hx'
      · rw [if_neg hif] at hx'
        rcases List.mem_append.mp hx' with hx'' | hx''
        · exact Or.inl hx''
        · rcases List.mem_singleton.mp hx'' with rfl
          exact Or.inr ⟨fun hc => hif (Or.inl hc), List.mem_cons_self _ _⟩
    · exact Or.inr ⟨hc, List.mem_cons_of_mem k0 hl⟩

/-- Soundness of `expandedFold`: every expanded term avoids the core list
and is a taxonomy keyword. -/
theorem expandedFold_sound_aux (KD : Taxonomy) (core : List Str) :
    ∀ (cats : List Str) (acc : List Str) (x : Str),
      x ∈ cats.foldl
        (fun acc cat => (lookupKD KD cat).foldl
          (fun a kw => if kw ∈ core ∨ kw ∈ a then a else a ++ [kw]) acc)
        acc →
      x ∈ acc ∨ (x ∉ core ∧ ∃ p ∈ KD, x ∈ p.2) := by
  intro cats
  induction cats with
  | nil => intro acc x hx; exact Or.inl hx
  | cons c0 cats ih =>
    intro acc x hx
    rw [List.foldl_cons] at hx
    rcases ih _ x hx with hx' | h
    · rcases expInner_sound core (lookupKD KD c0) acc x hx' with hx'' | ⟨hc, hl⟩
      · exact Or.inl hx''
      · exact Or.inr ⟨hc, lookupKD_mem KD c0 x hl⟩
    · exact Or.inr h

/-- Soundness of `expandedFold` at the empty accumulator. -/
theorem expandedFold_sound (KD : Taxonomy) (q : Str) (core : List Str) (x : Str)
    (hx : x ∈ expandedFold KD q core) : x ∉ core ∧ ∃ p ∈ KD, x ∈ p.2 := by
  rcases expandedFold_sound_aux KD core (foundCats KD q) [] x hx with h | h
  · cases h
  · exact h

/-- Soundness of `otherFold`: every residual term is one of the split
fields. -/
theorem otherFold_sound_aux (STOP : List Str) :
    ∀ (parts : List Str) (acc : List Str) (x : Str),
      x ∈ parts.foldl
        (fun acc part =>
          if 2 ≤ part.length ∧ part ∉ STOP ∧ part ∉ acc then acc ++ [part] else acc)
        acc →
      x ∈ acc ∨ x ∈ parts := by
  intro parts
  induction parts with
  | nil => intro acc x hx; exact Or.inl hx
  | cons p0 parts ih =>
    intro acc x hx
    rw [List.foldl_cons] at hx
    rcases ih _ x hx with hx' | hl
    · by_cases hif : 2 ≤ p0.length ∧ p0 ∉ STOP ∧ p0 ∉ acc
      · rw [if_pos hif] at hx'
        rcases List.mem_append.mp hx' with hx'' | hx''
        · exact Or.inl hx''
        · rcases List.mem_singleton.mp hx'' with rfl
          exact Or.inr (List.mem_cons_self _ _)
      · rw [if_neg hif] at hx'
        exact Or.inl hx'
    · exact Or.inr (List.mem_cons_of_mem p0 hl)

/-- Soundness of `otherFold` at the empty accumulator. -/
theorem otherFold_sound (STOP parts : List Str) (x : Str)
    (hx : x ∈ otherFold STOP parts) : x ∈ parts := by
  rcases otherFold_sound_aux STOP parts [] x hx with h | h
  · cases h
  · exact h

/-- After `temp_q` blanks the core keywords, a space-free core keyword no
longer occurs in the working string (all taxonomy keywords nonempty). -/
theorem core_not_in_tempQ (KD : Taxonomy) (q0 kw : Str)
    (hne : ∀ p ∈ KD, ∀ k ∈ p.2, k ≠ [])
    (hkw : kw ∈ coreFold KD q0) (hsp : ' ' ∉ kw) :
    ¬ kw <:+: tempQ (coreFold KD q0) q0 := by
  have hcore_ne : ∀ k ∈ coreFold KD q0, k ≠ [] := by
    intro k hk
    rcases (coreFold_sound KD q0 k hk).1 with ⟨p, hp, hkp⟩
    exact hne p hp k hkp
  rcases List.append_of_mem hkw with ⟨pre, post, heq⟩
  rw [tempQ, heq]
  have hsplit : (pre ++ kw :: post) ++ functionalWords =
      pre ++ kw :: (post ++ functionalWords) := by simp
  rw [hsplit, List.foldl_append, List.foldl_cons]
  have hkne : kw ≠ [] := hcore_ne kw hkw
  rw [pyReplace_ne _ kw hkne]
  refine notIn_foldl_repl kw hsp (post ++ functionalWords) ?_ _ ?_
  · intro p0 hp0
    rcases List.mem_append.mp hp0 with hp0' | hp0'
    · exact hcore_ne p0 (by rw [heq]; exact List.mem_append_right _ (List.mem_cons_of_mem kw hp0'))
    · exact functionalWords_ne p0 hp0'
  · exact self_elim kw hkne hsp _ _ (le_refl _)

/-- Unfolding of `normalize_query` on a query that cleans to empty. -/
theorem normalize_query_nil (KD : Taxonomy) (STOP : List Str) (q : Str)
    (h0 : lowerStr (pyStrip q) = []) :
    normalize_query KD STOP q = ⟨[], [], []⟩ := by
  simp only [normalize_query]
  rw [if_pos h0]

/-- Unfolding of `normalize_query` on a query that cleans to a nonempty
string. -/
theorem normalize_query_eq (KD : Taxonomy) (STOP : List Str) (q : Str)
    (h0 : lowerStr (pyStrip q) ≠ []) :
    normalize_query KD STOP q =
      ⟨coreFold KD (lowerStr (pyStrip q)),
       expandedFold KD (lowerStr (pyStrip q)) (coreFold KD (lowerStr (pyStrip q))),
       otherFold STOP
         (splitDelims
           (tempQ (coreFold KD (lowerStr (pyStrip q))) (lowerStr (pyStrip q))))⟩ := by
  simp only [normalize_query]
  rw [if_neg h0]

/-- C8, counterexample: the claim includes the whole-query fallback of
`search_units` in `userCore`.  For the query "hello" (no taxonomy hit) the
fallback puts the raw query into `user_input_core` while `other_terms`
already holds the identical cleaned query, so userCore and other are NOT
disjoint. -/
theorem claim_C8_counterexample :
    (search_terms taxC [] (str "hello")).user_input_core = [str "hello"] ∧
    str "hello" ∈ (search_terms taxC [] (str "hello")).other_terms := by decide

/-- C8 (amended): inside `normalize_query` itself (no `search_units`
fallback), the three term lists are pairwise disjoint whenever every
taxonomy keyword is nonempty: expanded terms are built excluding the core
list; a core keyword is blanked out of `temp_q` by the replace passes and
can never reappear (replacement inserts spaces, which the split removes),
so no residual field equals it; and a residual field equal to an expanded
keyword would be an infix of the cleaned query, forcing that keyword into
the core list — a contradiction. -/
theorem claim_C8_amended (KD : Taxonomy) (STOP : List Str) (q : Str)
    (hne : ∀ p ∈ KD, ∀ kw ∈ p.2, kw ≠ []) :
    (∀ x ∈ (normalize_query KD STOP q).user_input_core,
        x ∉ (normalize_query KD STOP q).category_expanded) ∧
    (∀ x ∈ (normalize_query KD STOP q).user_input_core,
        x ∉ (normalize_query KD STOP q).other_terms) ∧
    (∀ x ∈ (normalize_query KD STOP q).category_expanded,
        x ∉ (normalize_query KD STOP q).other_terms) := by
  by_cases h0 : lowerStr (pyStrip q) = []
  · rw [normalize_query_nil KD STOP q h0]
    refine ⟨?_, ?_, ?_⟩ <;> (intro x hx; cases hx)
  · rw [normalize_query_eq KD STOP q h0]
    refine ⟨?_, ?_, ?_⟩
    · intro x hx hmem
      exact (expandedFold_sound KD _ _ x hmem).1 hx
    · intro x hx hmem
      have hparts := otherFold_sound STOP _ x hmem
      rcases splitDelims_mem _ x hparts with ⟨h1, h2, h3⟩
      have hspx : ' ' ∉ x := fun hx' => h2 ' ' hx' (by decide)
      exact core_not_in_tempQ KD (lowerStr (pyStrip q)) x hne hx hspx h3
    · intro x hx hmem
      have hparts := otherFold_sound STOP _ x hmem
      rcases splitDelims_mem _ x hparts with ⟨h1, h2, h3⟩
      have hspx : ' ' ∉ x := fun hx' => h2 ' ' hx' (by decide)
      rcases expandedFold_sound KD _ _ x hx with ⟨hnc, p, hp, hxp⟩
      have hcore_ne : ∀ k ∈ coreFold KD (lowerStr (pyStrip q)), k ≠ [] := by
        intro k hk
        rcases (coreFold_sound KD _ k hk).1 with ⟨p', hp', hkp'⟩
        exact hne p' hp' k hkp'
      have hback : x <:+: lowerStr (pyStrip q) := by
        rw [tempQ] at h3
        refine infx_foldl_back x hspx _ ?_ _ h3
        intro p0 hp0
        rcases List.mem_append.mp hp0 with hp0' | hp0'
        · exact hcore_ne p0 hp0'
        · exact functionalWords_ne p0 hp0'
      have hsub : isSub x (lowerStr (pyStrip q)) = true := by
        unfold isSub
        exact decide_eq_true hback
      exact hnc (coreFold_complete KD _ x p hp hxp hsub)

/-- C8, witness: the amended disjointness at a concrete taxonomy and
query ("sorrow plus stress"), with the nonempty-keyword hypothesis
discharged by computation. -/
theorem claim_C8_witness :
    (∀ p ∈ taxC, ∀ kw ∈ p.2, kw ≠ []) ∧
    ((∀ x ∈ (normalize_query taxC [] (str "悲傷和壓力")).user_input_core,
        x ∉ (normalize_query taxC [] (str "悲傷和壓力")).category_expanded) ∧
     (∀ x ∈ (normalize_query taxC [] (str "悲傷和壓力")).user_input_core,
        x ∉ (normalize_query taxC [] (str "悲傷和壓力")).other_terms) ∧
     (∀ x ∈ (normalize_query taxC [] (str "悲傷和壓力")).category_expanded,
        x ∉ (normalize_query taxC [] (str "悲傷和壓力")).other_terms)) :=
  ⟨by decide, claim_C8_amended taxC [] (str "悲傷和壓力") (by decide)⟩
